import Mathlib

/-!
# Verification of the `sem` semantic-version library

A shallow embedding of `sem.go`: Go strings are modelled as `List Char`
(for the sections this library validates, every character scanned before a
reported error is ASCII, so byte positions and character positions agree,
and UTF-8 byte-lexicographic string comparison agrees with code-point
lexicographic comparison), `strings.Split`/`strings.Join` with a
single-character separator as `goSplit`/`goJoin`, and `strconv.Atoi` with
its sign handling and 64-bit range check as `atoi`.
-/

namespace Sem

/-- Go strings, as lists of Unicode scalar values. -/
abbrev Str := List Char

/-- `strings.Split s sep` for a single-character separator `sep`:
splits at every occurrence of `sep`, keeping empty segments, and returns
`[s]` (here `[[]]` for the empty string) when `sep` does not occur. -/
def goSplit (sep : Char) : Str → List Str
  | [] => [[]]
  | c :: cs =>
    let r := goSplit sep cs
    if c = sep then [] :: r
    else (c :: r.headI) :: r.tail

/-- `strings.Join xs sep` for a single-character separator. -/
def goJoin (sep : Char) : List Str → Str
  | [] => []
  | [x] => x
  | x :: xs => x ++ sep :: goJoin sep xs

/-- The bad-character test of the normal-version scan in `New`:
`r < '0' || r > '9'`. -/
def badNormalChar (r : Char) : Bool := r < '0' || '9' < r

/-- The bad-character test used by `New` for both the metadata and the
prerelease sections: outside `[0-9a-zA-Z]` and neither `'-'` nor `'.'`. -/
def badIdentChar (r : Char) : Bool :=
  (r < '0' || '9' < r) && (r < 'a' || 'z' < r) && (r < 'A' || 'Z' < r) &&
    !(r = '-') && !(r = '.')

/-- `for i, r := range s { if p r { return (r, i) } }`: the first character
satisfying `p`, with its position. -/
def findBad (p : Char → Bool) : Str → Option (Char × Nat)
  | [] => none
  | c :: cs =>
    if p c then some (c, 0)
    else (findBad p cs).map (fun x => (x.1, x.2 + 1))

/-- Digit test `'0' ≤ c ≤ '9'`. -/
def isDigitC (c : Char) : Bool := '0' ≤ c && c ≤ '9'

/-- Decimal accumulation over a digit string; fails on the first
non-digit. -/
def parseNatAcc : Str → Nat → Option Nat
  | [], acc => some acc
  | c :: cs, acc =>
    if isDigitC c then parseNatAcc cs (acc * 10 + (c.toNat - 48)) else none

/-- The unsigned-decimal part of `strconv.Atoi`: at least one character,
all digits. -/
def parseNat (s : Str) : Option Nat :=
  if s = [] then none else parseNatAcc s 0

/-- `math.MaxInt64`, the largest value of Go's 64-bit `int`. -/
def int64Max : Nat := 9223372036854775807

/-- `strconv.Atoi`: one optional leading `'+'` or `'-'`, then one or more
decimal digits; the value must fit in a 64-bit signed `int`, otherwise the
range error is reported as a failure. -/
def atoi : Str → Option Int
  | [] => none
  | c :: cs =>
    if c = '-' then
      (parseNat cs).bind fun n =>
        if n ≤ int64Max + 1 then some (-(n : Int)) else none
    else if c = '+' then
      (parseNat cs).bind fun n => if n ≤ int64Max then some (n : Int) else none
    else
      (parseNat (c :: cs)).bind fun n =>
        if n ≤ int64Max then some (n : Int) else none

/-- The `Version` struct: `Normal [3]int`, `Prerelease []string`,
`Meta string`. The fixed-size array is embedded as three `Int` fields. -/
structure Version where
  normal0 : Int
  normal1 : Int
  normal2 : Int
  prerelease : List Str
  meta : Str
deriving DecidableEq, Repr

/-- The errors `New` can return: `ErrMultiMeta`, `ErrBadSemVer`, a
`ParseError{T, R, P}`, or a `strconv` conversion error propagated
verbatim (modelled with the offending segment). -/
inductive SemError where
  | multiMeta
  | badSemVer
  | parseErr (t : String) (r : Char) (p : Nat)
  | numErr (s : Str)
deriving DecidableEq, Repr

/-- The part of `New` after metadata extraction: normal-version parsing
(three dot-separated digit segments, with error positions accumulated
across segments and their trailing dots) followed by prerelease
extraction and validation.  `m0` is `meta[0]`, `metaVal` the already
validated metadata. -/
def parseMain (m0 : Str) (metaVal : Str) : Except SemError Version :=
  let longVersion := goSplit '-' m0
  let normal := goSplit '.' longVersion.headI
  match normal with
  | [s0, s1, s2] =>
    match findBad badNormalChar s0 with
    | some x => .error (.parseErr "normal" x.1 x.2)
    | none =>
      match atoi s0 with
      | none => .error (.numErr s0)
      | some n0 =>
        match findBad badNormalChar s1 with
        | some x => .error (.parseErr "normal" x.1 (s0.length + 1 + x.2))
        | none =>
          match atoi s1 with
          | none => .error (.numErr s1)
          | some n1 =>
            match findBad badNormalChar s2 with
            | some x =>
              .error (.parseErr "normal" x.1 (s0.length + 1 + (s1.length + 1) + x.2))
            | none =>
              match atoi s2 with
              | none => .error (.numErr s2)
              | some n2 =>
                let pre := goJoin '-' longVersion.tail
                if pre = [] then .ok ⟨n0, n1, n2, [], metaVal⟩
                else
                  match findBad badIdentChar pre with
                  | some x => .error (.parseErr "prerelease" x.1 x.2)
                  | none => .ok ⟨n0, n1, n2, goSplit '.' pre, metaVal⟩
  | _ => .error .badSemVer

/-- `New`: extract and validate metadata (splitting on `'+'`, at most two
segments and `ErrMultiMeta` otherwise), then parse the rest. -/
def new (s : Str) : Except SemError Version :=
  match goSplit '+' s with
  | [m0] => parseMain m0 []
  | [m0, m1] =>
    match findBad badIdentChar m1 with
    | some x => .error (.parseErr "meta" x.1 x.2)
    | none => parseMain m0 m1
  | _ => .error .multiMeta

/-- `%d` formatting of a natural number. -/
def natToChars (n : Nat) : Str :=
  if h : n < 10 then [Char.ofNat (48 + n)]
  else natToChars (n / 10) ++ [Char.ofNat (48 + n % 10)]
decreasing_by exact Nat.div_lt_self (by omega) (by omega)

/-- `fmt.Sprintf "%d"` of a Go `int`. -/
def intToChars (n : Int) : Str :=
  if n < 0 then '-' :: natToChars (-n).toNat else natToChars n.toNat

/-- `Version.String`: `major.minor.patch`, then `-` and the prerelease
identifiers joined with dots when any exist, then `+meta` when `Meta` is
non-empty. -/
def render (v : Version) : Str :=
  let s := intToChars v.normal0 ++ '.' :: intToChars v.normal1 ++ '.' :: intToChars v.normal2
  let pre := goJoin '.' v.prerelease
  let s1 := if pre ≠ [] then s ++ '-' :: pre else s
  if v.meta ≠ [] then s1 ++ '+' :: v.meta else s1

/-- Go's `<` on strings: lexicographic comparison (byte order on UTF-8,
which agrees with scalar-value order). -/
def strLt : Str → Str → Bool
  | [], [] => false
  | [], _ :: _ => true
  | _ :: _, [] => false
  | a :: as, b :: bs => if a < b then true else if b < a then false else strLt as bs

/-- The prerelease loop of `AtLeast`: iterate over `min`'s identifiers,
first exhausting `v` deciding low, then numeric comparison when both
identifiers parse with `strconv.Atoi`, the string-beats-int rule on mixed
identifiers, and lexicographic string comparison otherwise. -/
def preLoop : List Str → List Str → Bool
  | _, [] => true
  | [], _ :: _ => false
  | vp :: vrest, mp :: mrest =>
    match atoi vp, atoi mp with
    | some vV, some minV =>
      if minV < vV then true
      else if vV < minV then false
      else preLoop vrest mrest
    | none, some _ => true
    | some _, none => false
    | none, none =>
      if strLt mp vp then true
      else if strLt vp mp then false
      else preLoop vrest mrest

/-- `Version.AtLeast`: normal triple first, then the release-beats-
prerelease rule, then the prerelease loop. -/
def atLeast (v mn : Version) : Bool :=
  if v.normal0 < mn.normal0 then false
  else if mn.normal0 < v.normal0 then true
  else if v.normal1 < mn.normal1 then false
  else if mn.normal1 < v.normal1 then true
  else if v.normal2 < mn.normal2 then false
  else if mn.normal2 < v.normal2 then true
  else if v.prerelease.length = 0 ∧ 0 < mn.prerelease.length then true
  else if 0 < v.prerelease.length ∧ mn.prerelease.length = 0 then false
  else preLoop v.prerelease mn.prerelease

/-! ## A three-way view of the comparison

`atLeast` is shown below to agree with `verCmp ≠ .lt` for a three-way
comparator `verCmp` built from lawful pieces; reflexivity and
transitivity then follow from the comparator laws. -/

/-- Three-way comparison from a linear order, by the same two strict
tests the source performs. -/
def cmpOfLt {α : Type} [LinearOrder α] (x y : α) : Ordering :=
  if x < y then .lt else if y < x then .gt else .eq

/-- Lexicographic extension of a three-way comparator to lists, with a
shorter list comparing below any extension of it. -/
def lexCmp {α : Type} (c : α → α → Ordering) : List α → List α → Ordering
  | [], [] => .eq
  | [], _ :: _ => .lt
  | _ :: _, [] => .gt
  | x :: xs, y :: ys =>
    match c x y with
    | .eq => lexCmp c xs ys
    | o => o

/-- The per-identifier comparison performed by the body of the prerelease
loop: numeric when both identifiers `Atoi`-parse, strings above
integers, lexicographic among strings. The first argument plays `v`'s
identifier, the second `min`'s. -/
def idCmp (x y : Str) : Ordering :=
  match atoi x, atoi y with
  | some a, some b => cmpOfLt a b
  | none, some _ => .gt
  | some _, none => .lt
  | none, none => lexCmp cmpOfLt x y

/-- The prerelease ranking used after the normal triples compare equal:
no prerelease ranks above any prerelease, two prerelease lists compare
lexicographically. -/
def preRank (a b : List Str) : Ordering :=
  match a, b with
  | [], [] => .eq
  | [], _ :: _ => .gt
  | _ :: _, [] => .lt
  | _ :: _, _ :: _ => lexCmp idCmp a b

/-- Comparison through a projection. -/
def byKey {α β : Type} (f : α → β) (c : β → β → Ordering) : α → α → Ordering :=
  fun a b => c (f a) (f b)

/-- The three-way counterpart of `AtLeast`: the normal triple
lexicographically, then the prerelease ranking. -/
def verCmp : Version → Version → Ordering :=
  compareLex (byKey Version.normal0 cmpOfLt)
    (compareLex (byKey Version.normal1 cmpOfLt)
      (compareLex (byKey Version.normal2 cmpOfLt) (byKey Version.prerelease preRank)))

/-- The decimal value of a digit string, most significant digit first. -/
def digitsVal (ds : Str) : Nat :=
  ds.foldl (fun a c => a * 10 + (c.toNat - 48)) 0

/-- The numeric classification the prerelease loop computes for one
identifier: `strconv.Atoi` succeeded on it. -/
def numericId (s : Str) : Bool := (atoi s).isSome

/-- Modelled from the spec wording of C1: the identifier "parses as a
non-negative integer", read as being a non-empty string of decimal
digits. -/
def specNonNegIntStr (s : Str) : Bool := !s.isEmpty && s.all isDigitC

/-- What `strconv.Atoi` accepts, stated structurally: an optional single
leading sign followed by one or more decimal digits, the value within
the 64-bit signed range. -/
def AtoiOk (s : Str) : Prop :=
  (s ≠ [] ∧ s.all isDigitC = true ∧ digitsVal s ≤ int64Max) ∨
  (∃ ds, s = '+' :: ds ∧ ds ≠ [] ∧ ds.all isDigitC = true ∧ digitsVal ds ≤ int64Max) ∨
  (∃ ds, s = '-' :: ds ∧ ds ≠ [] ∧ ds.all isDigitC = true ∧ digitsVal ds ≤ int64Max + 1)

/-- A character that is neither a decimal digit nor the dot separator:
what the normal-version scan can actually report. -/
def badNormalNonDot (c : Char) : Bool := badNormalChar c && !(c = '.')

/-- The shape every `Version` produced by `new` has: in-range
non-negative normal components, metadata free of invalid characters, and
a prerelease list that is either empty or the dot-split of a non-empty
validated prerelease string. -/
def Wf (v : Version) : Prop :=
  0 ≤ v.normal0 ∧ v.normal0 ≤ (int64Max : Int) ∧
  0 ≤ v.normal1 ∧ v.normal1 ≤ (int64Max : Int) ∧
  0 ≤ v.normal2 ∧ v.normal2 ≤ (int64Max : Int) ∧
  findBad badIdentChar v.meta = none ∧
  (v.prerelease = [] ∨
    ∃ p, p ≠ [] ∧ findBad badIdentChar p = none ∧ v.prerelease = goSplit '.' p)

theorem cmpOfLt_of_lt {α : Type} [LinearOrder α] {x y : α} (h : x < y) :
    cmpOfLt x y = .lt := by
  simp [cmpOfLt, h]

theorem cmpOfLt_of_gt {α : Type} [LinearOrder α] {x y : α} (h : y < x) :
    cmpOfLt x y = .gt := by
  simp [cmpOfLt, h, asymm h]

theorem cmpOfLt_self {α : Type} [LinearOrder α] (x : α) : cmpOfLt x x = .eq := by
  simp [cmpOfLt]

theorem cmpOfLt_ne_gt {α : Type} [LinearOrder α] {x y : α} :
    cmpOfLt x y ≠ .gt ↔ x ≤ y := by
  unfold cmpOfLt
  split_ifs with h1 h2
  · simp [h1.le]
  · simp [not_le.mpr h2]
  · simp [le_of_not_lt h2]

instance instTransCmpOfLt {α : Type} [LinearOrder α] :
    Batteries.TransCmp (cmpOfLt (α := α)) where
  symm x y := by
    rcases lt_trichotomy x y with h | rfl | h
    · rw [cmpOfLt_of_lt h, cmpOfLt_of_gt h]; rfl
    · rw [cmpOfLt_self]; rfl
    · rw [cmpOfLt_of_gt h, cmpOfLt_of_lt h]; rfl
  le_trans h1 h2 :=
    cmpOfLt_ne_gt.mpr (le_trans (cmpOfLt_ne_gt.mp h1) (cmpOfLt_ne_gt.mp h2))

/-- `Batteries.OrientedCmp.symm` with the comparator explicit. -/
theorem cSymm {α : Type} (c : α → α → Ordering) [Batteries.OrientedCmp c]
    (x y : α) : (c x y).swap = c y x :=
  Batteries.OrientedCmp.symm x y

/-- `Batteries.TransCmp.le_trans` with the comparator explicit. -/
theorem cLeTrans {α : Type} (c : α → α → Ordering) [Batteries.TransCmp c]
    {x y z : α} (h1 : c x y ≠ .gt) (h2 : c y z ≠ .gt) : c x z ≠ .gt :=
  Batteries.TransCmp.le_trans h1 h2

/-- `Batteries.TransCmp.lt_trans` with the comparator explicit. -/
theorem cLtTrans {α : Type} (c : α → α → Ordering) [Batteries.TransCmp c]
    {x y z : α} (h1 : c x y = .lt) (h2 : c y z = .lt) : c x z = .lt :=
  Batteries.TransCmp.lt_trans h1 h2

/-- `Batteries.TransCmp.cmp_congr_left` with the comparator explicit. -/
theorem cCongrL {α : Type} (c : α → α → Ordering) [Batteries.TransCmp c]
    {x y : α} (z : α) (h : c x y = .eq) : c x z = c y z :=
  Batteries.TransCmp.cmp_congr_left h

/-- `Batteries.TransCmp.cmp_congr_right` with the comparator explicit. -/
theorem cCongrR {α : Type} (c : α → α → Ordering) [Batteries.TransCmp c]
    {y z : α} (x : α) (h : c y z = .eq) : c x y = c x z :=
  Batteries.TransCmp.cmp_congr_right h


theorem lexCmp_symm {α : Type} (c : α → α → Ordering) [Batteries.OrientedCmp c] :
    ∀ xs ys, (lexCmp c xs ys).swap = lexCmp c ys xs
  | [], [] => rfl
  | [], _ :: _ => rfl
  | _ :: _, [] => rfl
  | x :: xs, y :: ys => by
    show (lexCmp c (x :: xs) (y :: ys)).swap = lexCmp c (y :: ys) (x :: xs)
    simp only [lexCmp]
    rw [← cSymm c x y]
    cases h : c x y with
    | lt => rfl
    | gt => rfl
    | eq =>
      show (lexCmp c xs ys).swap = lexCmp c ys xs
      exact lexCmp_symm c xs ys

theorem lexCmp_comm {α : Type} (c : α → α → Ordering) [Batteries.OrientedCmp c]
    (xs ys : List α) : lexCmp c ys xs = (lexCmp c xs ys).swap :=
  (lexCmp_symm c xs ys).symm

theorem lexCmp_le_trans {α : Type} (c : α → α → Ordering) [Batteries.TransCmp c] :
    ∀ xs ys zs, lexCmp c xs ys ≠ .gt → lexCmp c ys zs ≠ .gt →
      lexCmp c xs zs ≠ .gt
  | [], ys, zs => by cases zs <;> intro h1 h2 <;> simp [lexCmp]
  | x :: xs, ys, [] => by
    cases ys <;> intro h1 h2
    · exact absurd rfl h1
    · exact absurd rfl h2
  | x :: xs, [], z :: zs => by intro h1 h2; exact absurd rfl h1
  | x :: xs, y :: ys, z :: zs => by
    intro h1 h2
    simp only [lexCmp] at h1 h2 ⊢
    cases e1 : c x y with
    | gt => rw [e1] at h1; exact absurd rfl h1
    | eq =>
      rw [e1] at h1
      cases e2 : c y z with
      | gt => rw [e2] at h2; exact absurd rfl h2
      | eq =>
        rw [e2] at h2
        have e3 : c x z = .eq := by rw [cCongrL c z e1, e2]
        rw [e3]
        exact lexCmp_le_trans c xs ys zs h1 h2
      | lt =>
        have e3 : c x z = .lt := by rw [cCongrL c z e1, e2]
        rw [e3]; simp
    | lt =>
      cases e2 : c y z with
      | gt => rw [e2] at h2; exact absurd rfl h2
      | eq =>
        have e3 : c x z = .lt := by rw [← cCongrR c x e2, e1]
        rw [e3]; simp
      | lt =>
        have e3 : c x z = .lt := cLtTrans c e1 e2
        rw [e3]; simp

instance instTransCmpLex {α : Type} (c : α → α → Ordering) [Batteries.TransCmp c] :
    Batteries.TransCmp (lexCmp c) where
  symm xs ys := lexCmp_symm c xs ys
  le_trans h1 h2 := lexCmp_le_trans c _ _ _ h1 h2


instance instTransCmpId : Batteries.TransCmp idCmp where
  symm x y := by
    unfold idCmp
    cases hx : atoi x <;> cases hy : atoi y
    · exact lexCmp_symm cmpOfLt x y
    · rfl
    · rfl
    · exact cSymm cmpOfLt _ _
  le_trans {x y z} h1 h2 := by
    unfold idCmp at h1 h2 ⊢
    cases hx : atoi x <;> cases hy : atoi y <;> cases hz : atoi z <;>
      rw [hx, hy] at h1 <;> rw [hy, hz] at h2 <;>
      first
        | exact lexCmp_le_trans cmpOfLt x y z h1 h2
        | exact absurd rfl h1
        | exact absurd rfl h2
        | exact cLeTrans cmpOfLt h1 h2
        | simp


instance instTransCmpPreRank : Batteries.TransCmp preRank where
  symm a b := by
    cases a <;> cases b
    · rfl
    · rfl
    · rfl
    · exact lexCmp_symm idCmp _ _
  le_trans {a b c} h1 h2 := by
    unfold preRank at h1 h2 ⊢
    cases a <;> cases b <;> cases c
    · simp
    · exact absurd rfl h2
    · exact absurd rfl h1
    · exact absurd rfl h1
    · simp
    · exact absurd rfl h2
    · simp
    · exact lexCmp_le_trans idCmp _ _ _ h1 h2


instance instOrientedCmpByKey {α β : Type} (f : α → β) (c : β → β → Ordering)
    [Batteries.OrientedCmp c] : Batteries.OrientedCmp (byKey f c) where
  symm a b := Batteries.OrientedCmp.symm (f a) (f b)

instance instTransCmpByKey {α β : Type} (f : α → β) (c : β → β → Ordering)
    [Batteries.TransCmp c] : Batteries.TransCmp (byKey f c) where
  le_trans h1 h2 := cLeTrans c h1 h2


instance instTransCmpVer : Batteries.TransCmp verCmp :=
  inferInstanceAs (Batteries.TransCmp (compareLex (byKey Version.normal0 cmpOfLt)
    (compareLex (byKey Version.normal1 cmpOfLt)
      (compareLex (byKey Version.normal2 cmpOfLt) (byKey Version.prerelease preRank)))))

/-! ## `atLeast` agrees with the three-way view -/

theorem strLt_iff_lt : ∀ x y : Str, strLt x y = true ↔ lexCmp cmpOfLt x y = .lt
  | [], [] => by simp [strLt, lexCmp]
  | [], _ :: _ => by simp [strLt, lexCmp]
  | _ :: _, [] => by simp [strLt, lexCmp]
  | a :: as, b :: bs => by
    show strLt (a :: as) (b :: bs) = true ↔ lexCmp cmpOfLt (a :: as) (b :: bs) = .lt
    simp only [strLt, lexCmp]
    rcases lt_trichotomy a b with h | rfl | h
    · rw [cmpOfLt_of_lt h]; simp [h]
    · rw [cmpOfLt_self]; simp only [lt_irrefl, if_false]; exact strLt_iff_lt as bs
    · rw [cmpOfLt_of_gt h]; simp [h, asymm h]

theorem strLt_false_iff {x y : Str} : strLt x y = false ↔ lexCmp cmpOfLt x y ≠ .lt :=
  Bool.eq_false_iff.trans (not_congr (strLt_iff_lt x y))

theorem preLoop_iff : ∀ vp mp : List Str, preLoop vp mp = true ↔ lexCmp idCmp vp mp ≠ .lt
  | [], [] => by simp [preLoop, lexCmp]
  | _ :: _, [] => by simp [preLoop, lexCmp]
  | [], _ :: _ => by simp [preLoop, lexCmp]
  | vp0 :: vrest, mp0 :: mrest => by
    show preLoop (vp0 :: vrest) (mp0 :: mrest) = true ↔
      lexCmp idCmp (vp0 :: vrest) (mp0 :: mrest) ≠ .lt
    simp only [preLoop, lexCmp, idCmp]
    cases hv : atoi vp0 <;> cases hm : atoi mp0
    · -- both identifiers are strings: the loop compares with Go string order
      show (if strLt mp0 vp0 = true then true
        else if strLt vp0 mp0 = true then false else preLoop vrest mrest) = true ↔
        (match lexCmp cmpOfLt vp0 mp0 with
          | Ordering.eq => lexCmp idCmp vrest mrest
          | o => o) ≠ Ordering.lt
      have hswap : lexCmp cmpOfLt mp0 vp0 = (lexCmp cmpOfLt vp0 mp0).swap :=
        lexCmp_comm cmpOfLt vp0 mp0
      cases hs : lexCmp cmpOfLt vp0 mp0 with
      | lt =>
        rw [hs] at hswap
        rw [if_neg (by rw [strLt_iff_lt, hswap]; decide),
          if_pos (by rw [strLt_iff_lt, hs])]
        simp
      | eq =>
        rw [hs] at hswap
        rw [if_neg (by rw [strLt_iff_lt, hswap]; decide),
          if_neg (by rw [strLt_iff_lt, hs]; decide)]
        simpa using preLoop_iff vrest mrest
      | gt =>
        rw [hs] at hswap
        rw [if_pos (by rw [strLt_iff_lt, hswap]; rfl)]
        simp
    · simp
    · simp
    · rename_i vV minV
      show (if minV < vV then true else if vV < minV then false else preLoop vrest mrest) = true ↔
        (match cmpOfLt vV minV with
          | Ordering.eq => lexCmp idCmp vrest mrest
          | o => o) ≠ Ordering.lt
      rcases lt_trichotomy vV minV with h | rfl | h
      · rw [cmpOfLt_of_lt h]; simp [h, asymm h]
      · rw [cmpOfLt_self]; simp only [lt_irrefl, if_false]
        simpa using preLoop_iff vrest mrest
      · rw [cmpOfLt_of_gt h]; simp [h, asymm h]

theorem lt_then (o : Ordering) : Ordering.lt.then o = .lt := rfl

theorem gt_then (o : Ordering) : Ordering.gt.then o = .gt := rfl

theorem eq_then (o : Ordering) : Ordering.eq.then o = o := rfl

theorem atLeast_iff_verCmp (v mn : Version) : atLeast v mn = true ↔ verCmp v mn ≠ .lt := by
  unfold atLeast verCmp compareLex byKey
  rcases lt_trichotomy v.normal0 mn.normal0 with h0 | h0 | h0
  · rw [cmpOfLt_of_lt h0]; simp [h0, lt_then]
  · rw [h0, cmpOfLt_self, if_neg (lt_irrefl _), if_neg (lt_irrefl _), eq_then]
    rcases lt_trichotomy v.normal1 mn.normal1 with h1 | h1 | h1
    · rw [cmpOfLt_of_lt h1]; simp [h1, lt_then]
    · rw [h1, cmpOfLt_self, if_neg (lt_irrefl _), if_neg (lt_irrefl _), eq_then]
      rcases lt_trichotomy v.normal2 mn.normal2 with h2 | h2 | h2
      · rw [cmpOfLt_of_lt h2]; simp [h2, lt_then]
      · rw [h2, cmpOfLt_self, if_neg (lt_irrefl _), if_neg (lt_irrefl _), eq_then]
        cases hv : v.prerelease with
        | nil =>
          cases hm : mn.prerelease with
          | nil => simp [preRank, preLoop]
          | cons a as => simp [preRank]
        | cons b bs =>
          cases hm : mn.prerelease with
          | nil => simp [preRank, preLoop]
          | cons a as =>
            rw [if_neg (by simp), if_neg (by simp)]
            show preLoop (b :: bs) (a :: as) = true ↔ preRank (b :: bs) (a :: as) ≠ .lt
            rw [preLoop_iff]
            rfl
      · rw [cmpOfLt_of_gt h2]; simp [h2, asymm h2, gt_then]
    · rw [cmpOfLt_of_gt h1]; simp [h1, asymm h1, gt_then]
  · rw [cmpOfLt_of_gt h0]; simp [h0, asymm h0, gt_then]

/-- `Batteries.OrientedCmp.cmp_refl` with the comparator explicit. -/
theorem cRefl {α : Type} (c : α → α → Ordering) [Batteries.OrientedCmp c]
    (x : α) : c x x = .eq :=
  Batteries.OrientedCmp.cmp_refl

/-- `Batteries.TransCmp.ge_trans` with the comparator explicit. -/
theorem cGeTrans {α : Type} (c : α → α → Ordering) [Batteries.TransCmp c]
    {x y z : α} (h1 : c x y ≠ .lt) (h2 : c y z ≠ .lt) : c x z ≠ .lt :=
  Batteries.TransCmp.ge_trans h1 h2

/-- With equal normal triples, `atLeast` reduces to the prerelease
rules. -/
theorem atLeast_normals_eq (v mn : Version) (e0 : v.normal0 = mn.normal0)
    (e1 : v.normal1 = mn.normal1) (e2 : v.normal2 = mn.normal2) :
    atLeast v mn =
      (if v.prerelease.length = 0 ∧ 0 < mn.prerelease.length then true
       else if 0 < v.prerelease.length ∧ mn.prerelease.length = 0 then false
       else preLoop v.prerelease mn.prerelease) := by
  unfold atLeast
  rw [e0, e1, e2]
  simp [lt_irrefl]

/-! ## Claims C7, C8, C2 -/

/-- C7: for every `Version` value `v`, `AtLeast(v, v)` returns true
(reflexivity of the precedence comparison). -/
theorem claim_C7 (v : Version) : atLeast v v = true :=
  (atLeast_iff_verCmp v v).mpr (by rw [cRefl verCmp v]; decide)

/-- C8: for all `Version` values `a`, `b`, `c`, if `AtLeast(a, b)` and
`AtLeast(b, c)` both return true then `AtLeast(a, c)` returns true
(transitivity of the precedence comparison). -/
theorem claim_C8 (a b c : Version) (h1 : atLeast a b = true)
    (h2 : atLeast b c = true) : atLeast a c = true :=
  (atLeast_iff_verCmp a c).mpr
    (cGeTrans verCmp ((atLeast_iff_verCmp a b).mp h1) ((atLeast_iff_verCmp b c).mp h2))

theorem claim_C8_witness :
    atLeast ⟨2, 0, 0, [], []⟩ ⟨1, 5, 0, [], []⟩ = true ∧
    atLeast ⟨1, 5, 0, [], []⟩ ⟨1, 0, 0, [], []⟩ = true ∧
    atLeast ⟨2, 0, 0, [], []⟩ ⟨1, 0, 0, [], []⟩ = true :=
  ⟨by decide, by decide, claim_C8 ⟨2, 0, 0, [], []⟩ ⟨1, 5, 0, [], []⟩ ⟨1, 0, 0, [], []⟩
    (by decide) (by decide)⟩

/-- C2: with equal normal triples, a `v` without prerelease identifiers is
at least a `min` with some; a `v` with prerelease identifiers is not at
least a `min` without; and two versions without prerelease identifiers
compare as at-least. -/
theorem claim_C2 (v mn : Version) (e0 : v.normal0 = mn.normal0)
    (e1 : v.normal1 = mn.normal1) (e2 : v.normal2 = mn.normal2) :
    (v.prerelease = [] → mn.prerelease ≠ [] → atLeast v mn = true) ∧
    (v.prerelease ≠ [] → mn.prerelease = [] → atLeast v mn = false) ∧
    (v.prerelease = [] → mn.prerelease = [] → atLeast v mn = true) := by
  refine ⟨fun hv hm => ?_, fun hv hm => ?_, fun hv hm => ?_⟩
  · rw [atLeast_normals_eq v mn e0 e1 e2,
      if_pos ⟨by rw [hv]; rfl, List.length_pos.mpr hm⟩]
  · rw [atLeast_normals_eq v mn e0 e1 e2, if_neg (by simp [hm]),
      if_pos ⟨List.length_pos.mpr hv, by rw [hm]; rfl⟩]
  · rw [atLeast_normals_eq v mn e0 e1 e2, if_neg (by simp [hm]),
      if_neg (by simp [hv]), hv, hm]
    rfl

/-! ## The prerelease loop on pointwise-equal prefixes -/

theorem cmpOfLt_eq_lt_iff {α : Type} [LinearOrder α] {x y : α} :
    cmpOfLt x y = .lt ↔ x < y := by
  unfold cmpOfLt
  split_ifs with h1 h2
  · simp [h1]
  · simp [h1]
  · simp [h1]

theorem cmpOfLt_eq_gt_iff {α : Type} [LinearOrder α] {x y : α} :
    cmpOfLt x y = .gt ↔ y < x := by
  unfold cmpOfLt
  split_ifs with h1 h2
  · simp [h1, asymm h1]
  · simp [h2]
  · simp [h2]

theorem cmpOfLt_eq_eq_iff {α : Type} [LinearOrder α] {x y : α} :
    cmpOfLt x y = .eq ↔ x = y := by
  unfold cmpOfLt
  split_ifs with h1 h2
  · simp [h1.ne]
  · simp [h2.ne']
  · simp [le_antisymm (le_of_not_lt h2) (le_of_not_lt h1)]

theorem preLoop_cons_eq (x y : Str) (xs ys : List Str) (h : idCmp x y = .eq) :
    preLoop (x :: xs) (y :: ys) = preLoop xs ys := by
  unfold idCmp at h
  show (match atoi x, atoi y with
    | some vV, some minV =>
      if minV < vV then true else if vV < minV then false else preLoop xs ys
    | none, some _ => true
    | some _, none => false
    | none, none =>
      if strLt y x then true
      else if strLt x y then false
      else preLoop xs ys) = preLoop xs ys
  cases hx : atoi x <;> cases hy : atoi y <;> rw [hx, hy] at h <;>
    first
      | exact absurd (show Ordering.gt = Ordering.eq from h) (fun hh => Ordering.noConfusion hh)
      | exact absurd (show Ordering.lt = Ordering.eq from h) (fun hh => Ordering.noConfusion hh)
      | (have h' : lexCmp cmpOfLt x y = .eq := h
         have hyx : lexCmp cmpOfLt y x = .eq := by
           rw [lexCmp_comm cmpOfLt x y, h']; rfl
         show (if strLt y x = true then true
           else if strLt x y = true then false
           else preLoop xs ys) = preLoop xs ys
         rw [if_neg (by rw [strLt_iff_lt y x, hyx]; decide),
           if_neg (by rw [strLt_iff_lt x y, h']; decide)])
      | (rename_i a b
         have h' : cmpOfLt a b = .eq := h
         rw [cmpOfLt_eq_eq_iff] at h'
         subst h'
         show (if a < a then true else if a < a then false else preLoop xs ys) =
           preLoop xs ys
         rw [if_neg (lt_irrefl _), if_neg (lt_irrefl _)])

theorem preLoop_gt_head (x y : Str) (xs ys : List Str) (h : idCmp x y = .gt) :
    preLoop (x :: xs) (y :: ys) = true := by
  unfold idCmp at h
  show (match atoi x, atoi y with
    | some vV, some minV =>
      if minV < vV then true else if vV < minV then false else preLoop xs ys
    | none, some _ => true
    | some _, none => false
    | none, none =>
      if strLt y x then true
      else if strLt x y then false
      else preLoop xs ys) = true
  cases hx : atoi x <;> cases hy : atoi y <;> rw [hx, hy] at h <;>
    first
      | exact absurd (show Ordering.lt = Ordering.gt from h) (fun hh => Ordering.noConfusion hh)
      | exact absurd (show Ordering.eq = Ordering.gt from h) (fun hh => Ordering.noConfusion hh)
      | rfl
      | (have h' : lexCmp cmpOfLt x y = .gt := h
         have hyx : lexCmp cmpOfLt y x = .lt := by
           rw [lexCmp_comm cmpOfLt x y, h']; rfl
         show (if strLt y x = true then true
           else if strLt x y = true then false
           else preLoop xs ys) = true
         rw [if_pos (by rw [strLt_iff_lt y x]; exact hyx)])
      | (rename_i a b
         have h' : cmpOfLt a b = .gt := h
         rw [cmpOfLt_eq_gt_iff] at h'
         show (if b < a then true else if a < b then false else preLoop xs ys) = true
         rw [if_pos h'])

theorem preLoop_lt_head (x y : Str) (xs ys : List Str) (h : idCmp x y = .lt) :
    preLoop (x :: xs) (y :: ys) = false := by
  unfold idCmp at h
  show (match atoi x, atoi y with
    | some vV, some minV =>
      if minV < vV then true else if vV < minV then false else preLoop xs ys
    | none, some _ => true
    | some _, none => false
    | none, none =>
      if strLt y x then true
      else if strLt x y then false
      else preLoop xs ys) = false
  cases hx : atoi x <;> cases hy : atoi y <;> rw [hx, hy] at h <;>
    first
      | exact absurd (show Ordering.gt = Ordering.lt from h) (fun hh => Ordering.noConfusion hh)
      | exact absurd (show Ordering.eq = Ordering.lt from h) (fun hh => Ordering.noConfusion hh)
      | rfl
      | (have h' : lexCmp cmpOfLt x y = .lt := h
         have hyx : lexCmp cmpOfLt y x = .gt := by
           rw [lexCmp_comm cmpOfLt x y, h']; rfl
         show (if strLt y x = true then true
           else if strLt x y = true then false
           else preLoop xs ys) = false
         rw [if_neg (by rw [strLt_iff_lt y x, hyx]; decide),
           if_pos (by rw [strLt_iff_lt x y]; exact h')])
      | (rename_i a b
         have h' : cmpOfLt a b = .lt := h
         rw [cmpOfLt_eq_lt_iff] at h'
         show (if b < a then true else if a < b then false else preLoop xs ys) = false
         rw [if_neg (asymm h'), if_pos h'])

theorem preLoop_shorter : ∀ vp mp : List Str, vp.length < mp.length →
    (∀ j, j < vp.length → idCmp (vp.getD j []) (mp.getD j []) = .eq) →
    preLoop vp mp = false
  | [], mp, h, _ => by
    cases mp with
    | nil => simp at h
    | cons a as => rfl
  | x :: xs, mp, h, hpt => by
    cases mp with
    | nil => simp at h
    | cons y ys =>
      have h0 : idCmp x y = .eq := by have := hpt 0 (by simp); simpa using this
      rw [preLoop_cons_eq x y xs ys h0]
      refine preLoop_shorter xs ys ?_ ?_
      · simp only [List.length_cons] at h; omega
      · intro j hj
        have := hpt (j + 1) (by simp only [List.length_cons]; omega)
        simpa using this

theorem preLoop_min_exhausts : ∀ vp mp : List Str, mp.length ≤ vp.length →
    (∀ j, j < mp.length → idCmp (vp.getD j []) (mp.getD j []) = .eq) →
    preLoop vp mp = true
  | vp, [], _, _ => by cases vp <;> rfl
  | vp, y :: ys, h, hpt => by
    cases vp with
    | nil => simp at h
    | cons x xs =>
      have h0 : idCmp x y = .eq := by have := hpt 0 (by simp); simpa using this
      rw [preLoop_cons_eq x y xs ys h0]
      refine preLoop_min_exhausts xs ys ?_ ?_
      · simp only [List.length_cons] at h; omega
      · intro j hj
        have := hpt (j + 1) (by simp only [List.length_cons]; omega)
        simpa using this

theorem preLoop_first_gt : ∀ (i : Nat) (vp mp : List Str), i < vp.length →
    i < mp.length →
    (∀ j, j < i → idCmp (vp.getD j []) (mp.getD j []) = .eq) →
    idCmp (vp.getD i []) (mp.getD i []) = .gt → preLoop vp mp = true
  | 0, [], _, hv, _, _, _ => by simp at hv
  | 0, _ :: _, [], _, hm, _, _ => by simp at hm
  | 0, x :: xs, y :: ys, _, _, _, hgt => by
    simp only [List.getD_cons_zero] at hgt
    exact preLoop_gt_head x y xs ys hgt
  | i + 1, [], _, hv, _, _, _ => by simp at hv
  | i + 1, _ :: _, [], _, hm, _, _ => by simp at hm
  | i + 1, x :: xs, y :: ys, hv, hm, hpt, hgt => by
    have h0 : idCmp x y = .eq := by have := hpt 0 (by omega); simpa using this
    rw [preLoop_cons_eq x y xs ys h0]
    refine preLoop_first_gt i xs ys ?_ ?_ ?_ ?_
    · simp only [List.length_cons] at hv; omega
    · simp only [List.length_cons] at hm; omega
    · intro j hj
      have := hpt (j + 1) (by omega)
      simpa using this
    · simpa using hgt

theorem preLoop_first_lt : ∀ (i : Nat) (vp mp : List Str), i < vp.length →
    i < mp.length →
    (∀ j, j < i → idCmp (vp.getD j []) (mp.getD j []) = .eq) →
    idCmp (vp.getD i []) (mp.getD i []) = .lt → preLoop vp mp = false
  | 0, [], _, hv, _, _, _ => by simp at hv
  | 0, _ :: _, [], _, hm, _, _ => by simp at hm
  | 0, x :: xs, y :: ys, _, _, _, hlt => by
    simp only [List.getD_cons_zero] at hlt
    exact preLoop_lt_head x y xs ys hlt
  | i + 1, [], _, hv, _, _, _ => by simp at hv
  | i + 1, _ :: _, [], _, hm, _, _ => by simp at hm
  | i + 1, x :: xs, y :: ys, hv, hm, hpt, hlt => by
    have h0 : idCmp x y = .eq := by have := hpt 0 (by omega); simpa using this
    rw [preLoop_cons_eq x y xs ys h0]
    refine preLoop_first_lt i xs ys ?_ ?_ ?_ ?_
    · simp only [List.length_cons] at hv; omega
    · simp only [List.length_cons] at hm; omega
    · intro j hj
      have := hpt (j + 1) (by omega)
      simpa using this
    · simpa using hlt

/-! ## What `strconv.Atoi` accepts -/

theorem parseNatAcc_digits : ∀ (ds : Str) (acc : Nat), ds.all isDigitC = true →
    parseNatAcc ds acc =
      some (ds.foldl (fun a c => a * 10 + (c.toNat - 48)) acc)
  | [], _, _ => rfl
  | c :: cs, acc, h => by
    simp only [List.all_cons, Bool.and_eq_true] at h
    show (if isDigitC c = true then parseNatAcc cs (acc * 10 + (c.toNat - 48))
      else none) = _
    rw [if_pos h.1, parseNatAcc_digits cs _ h.2]
    rfl

theorem parseNatAcc_nonDigit : ∀ (ds : Str) (acc : Nat), ds.all isDigitC = false →
    parseNatAcc ds acc = none
  | [], _, h => by simp at h
  | c :: cs, acc, h => by
    show (if isDigitC c = true then parseNatAcc cs (acc * 10 + (c.toNat - 48))
      else none) = none
    by_cases hc : isDigitC c = true
    · rw [if_pos hc]
      refine parseNatAcc_nonDigit cs _ ?_
      simp only [List.all_cons, hc, Bool.true_and] at h
      exact h
    · rw [if_neg hc]

theorem parseNat_eq (s : Str) :
    parseNat s =
      if s ≠ [] ∧ s.all isDigitC = true then some (digitsVal s) else none := by
  unfold parseNat digitsVal
  by_cases hnil : s = []
  · subst hnil; simp
  · rw [if_neg hnil]
    by_cases hd : s.all isDigitC = true
    · rw [if_pos ⟨hnil, hd⟩, parseNatAcc_digits s 0 hd]
    · rw [if_neg (fun hcon => hd hcon.2),
        parseNatAcc_nonDigit s 0 (Bool.eq_false_iff.mpr hd)]

theorem atoi_digits (s : Str) (hne : s ≠ []) (hd : s.all isDigitC = true) :
    atoi s =
      if digitsVal s ≤ int64Max then some ((digitsVal s : Nat) : Int) else none := by
  cases s with
  | nil => exact absurd rfl hne
  | cons c cs =>
    have hc : isDigitC c = true := by
      simp only [List.all_cons, Bool.and_eq_true] at hd; exact hd.1
    have hcm : ¬(c = '-') := fun hcon => by subst hcon; revert hc; decide
    have hcp : ¬(c = '+') := fun hcon => by subst hcon; revert hc; decide
    simp only [atoi]
    rw [if_neg hcm, if_neg hcp, parseNat_eq, if_pos ⟨hne, hd⟩]
    rfl

theorem numericId_minus (cs : Str) :
    numericId ('-' :: cs) = true ↔
      cs ≠ [] ∧ cs.all isDigitC = true ∧ digitsVal cs ≤ int64Max + 1 := by
  show ((parseNat cs).bind fun n =>
    if n ≤ int64Max + 1 then some (-(n : Int)) else none).isSome = true ↔ _
  rw [parseNat_eq]
  by_cases hcs : cs ≠ [] ∧ cs.all isDigitC = true
  · rw [if_pos hcs]
    show (if digitsVal cs ≤ int64Max + 1 then some (-(digitsVal cs : Int))
      else none).isSome = true ↔ _
    by_cases hb : digitsVal cs ≤ int64Max + 1
    · rw [if_pos hb]
      simp [hcs.1, hcs.2, hb]
    · rw [if_neg hb]
      simp [hb]
  · rw [if_neg hcs]
    simp only [Option.none_bind, Option.isSome_none, Bool.false_eq_true, false_iff]
    rintro ⟨h1, h2, _⟩
    exact hcs ⟨h1, h2⟩

theorem numericId_plus (cs : Str) :
    numericId ('+' :: cs) = true ↔
      cs ≠ [] ∧ cs.all isDigitC = true ∧ digitsVal cs ≤ int64Max := by
  show ((parseNat cs).bind fun n =>
    if n ≤ int64Max then some ((n : Nat) : Int) else none).isSome = true ↔ _
  rw [parseNat_eq]
  by_cases hcs : cs ≠ [] ∧ cs.all isDigitC = true
  · rw [if_pos hcs]
    show (if digitsVal cs ≤ int64Max then some ((digitsVal cs : Nat) : Int)
      else none).isSome = true ↔ _
    by_cases hb : digitsVal cs ≤ int64Max
    · rw [if_pos hb]
      simp [hcs.1, hcs.2, hb]
    · rw [if_neg hb]
      simp [hb]
  · rw [if_neg hcs]
    simp only [Option.none_bind, Option.isSome_none, Bool.false_eq_true, false_iff]
    rintro ⟨h1, h2, _⟩
    exact hcs ⟨h1, h2⟩

theorem numericId_plain (c : Char) (cs : Str) (hcm : ¬(c = '-')) (hcp : ¬(c = '+')) :
    numericId (c :: cs) = true ↔
      (c :: cs).all isDigitC = true ∧ digitsVal (c :: cs) ≤ int64Max := by
  unfold numericId
  simp only [atoi]
  rw [if_neg hcm, if_neg hcp, parseNat_eq]
  by_cases hcs : (c :: cs) ≠ [] ∧ (c :: cs).all isDigitC = true
  · rw [if_pos hcs]
    show (if digitsVal (c :: cs) ≤ int64Max
      then some ((digitsVal (c :: cs) : Nat) : Int) else none).isSome = true ↔ _
    by_cases hb : digitsVal (c :: cs) ≤ int64Max
    · rw [if_pos hb]
      simp [hcs.2, hb]
    · rw [if_neg hb]
      simp [hb]
  · rw [if_neg hcs]
    simp only [Option.none_bind, Option.isSome_none, Bool.false_eq_true, false_iff]
    rintro ⟨h2, _⟩
    exact hcs ⟨List.cons_ne_nil c cs, h2⟩

/-- The numeric classification of the loop agrees with the structural
description of what `strconv.Atoi` accepts. -/
theorem numericId_iff (s : Str) : numericId s = true ↔ AtoiOk s := by
  cases s with
  | nil =>
    constructor
    · intro h
      exact absurd h (by decide)
    · rintro (⟨h, _⟩ | ⟨ds, h, _⟩ | ⟨ds, h, _⟩)
      · exact absurd rfl h
      · cases h
      · cases h
  | cons c cs =>
    by_cases hcm : c = '-'
    · subst hcm
      rw [numericId_minus]
      unfold AtoiOk
      constructor
      · rintro ⟨h1, h2, h3⟩
        exact Or.inr (Or.inr ⟨cs, rfl, h1, h2, h3⟩)
      · rintro (⟨_, hall, _⟩ | ⟨ds, hds, _⟩ | ⟨ds, hds, h1, h2, h3⟩)
        · rw [List.all_cons, (by decide : isDigitC '-' = false),
            Bool.false_and] at hall
          cases hall
        · cases hds
        · cases hds
          exact ⟨h1, h2, h3⟩
    · by_cases hcp : c = '+'
      · subst hcp
        rw [numericId_plus]
        unfold AtoiOk
        constructor
        · rintro ⟨h1, h2, h3⟩
          exact Or.inr (Or.inl ⟨cs, rfl, h1, h2, h3⟩)
        · rintro (⟨_, hall, _⟩ | ⟨ds, hds, h1, h2, h3⟩ | ⟨ds, hds, _⟩)
          · rw [List.all_cons, (by decide : isDigitC '+' = false),
              Bool.false_and] at hall
            cases hall
          · cases hds
            exact ⟨h1, h2, h3⟩
          · cases hds
      · rw [numericId_plain c cs hcm hcp]
        unfold AtoiOk
        constructor
        · rintro ⟨h1, h2⟩
          exact Or.inl ⟨List.cons_ne_nil c cs, h1, h2⟩
        · rintro (⟨_, h1, h2⟩ | ⟨ds, hds, _⟩ | ⟨ds, hds, _⟩)
          · exact ⟨h1, h2⟩
          · cases hds
            exact absurd rfl hcp
          · cases hds
            exact absurd rfl hcm

/-- A string identifier against a numeric identifier compares above it. -/
theorem idCmp_of_mixed_gt {x y : Str} (hx : numericId x = false)
    (hy : numericId y = true) : idCmp x y = .gt := by
  unfold numericId at hx hy
  unfold idCmp
  cases hxa : atoi x with
  | some a => rw [hxa] at hx; simp at hx
  | none =>
    cases hya : atoi y with
    | some b => rfl
    | none => rw [hya] at hy; simp at hy

/-- A numeric identifier against a string identifier compares below it. -/
theorem idCmp_of_mixed_lt {x y : Str} (hx : numericId x = true)
    (hy : numericId y = false) : idCmp x y = .lt := by
  unfold numericId at hx hy
  unfold idCmp
  cases hxa : atoi x with
  | none => rw [hxa] at hx; simp at hx
  | some a =>
    cases hya : atoi y with
    | none => rfl
    | some b => rw [hya] at hy; simp at hy

/-- With equal normal triples and both prerelease lists non-empty,
`atLeast` is the prerelease loop. -/
theorem atLeast_pre (v mn : Version) (e0 : v.normal0 = mn.normal0)
    (e1 : v.normal1 = mn.normal1) (e2 : v.normal2 = mn.normal2)
    (hv : v.prerelease ≠ []) (hm : mn.prerelease ≠ []) :
    atLeast v mn = preLoop v.prerelease mn.prerelease := by
  rw [atLeast_normals_eq v mn e0 e1 e2, if_neg (by simp [hv]), if_neg (by simp [hm])]

/-- C6: with equal normal triples and both prerelease lists non-empty,
if `v`'s list is a strict prefix-by-comparison of `min`'s (shorter, all
its positions comparing equal) then `AtLeast` returns false, and if every
position of `min`'s list compares equal to `v`'s corresponding identifier
(`min`'s list a prefix of `v`'s or the two identical) then `AtLeast`
returns true. -/
theorem claim_C6 (v mn : Version) (e0 : v.normal0 = mn.normal0)
    (e1 : v.normal1 = mn.normal1) (e2 : v.normal2 = mn.normal2)
    (hv : v.prerelease ≠ []) (hm : mn.prerelease ≠ []) :
    (v.prerelease.length < mn.prerelease.length →
      (∀ j, j < v.prerelease.length →
        idCmp (v.prerelease.getD j []) (mn.prerelease.getD j []) = .eq) →
      atLeast v mn = false) ∧
    (mn.prerelease.length ≤ v.prerelease.length →
      (∀ j, j < mn.prerelease.length →
        idCmp (v.prerelease.getD j []) (mn.prerelease.getD j []) = .eq) →
      atLeast v mn = true) := by
  constructor
  · intro hlen hpt
    rw [atLeast_pre v mn e0 e1 e2 hv hm]
    exact preLoop_shorter v.prerelease mn.prerelease hlen hpt
  · intro hlen hpt
    rw [atLeast_pre v mn e0 e1 e2 hv hm]
    exact preLoop_min_exhausts v.prerelease mn.prerelease hlen hpt

theorem claim_C6_witness :
    atLeast ⟨1, 0, 0, [['b', 'e', 't', 'a']], []⟩
      ⟨1, 0, 0, [['b', 'e', 't', 'a'], ['2']], []⟩ = false ∧
    atLeast ⟨1, 0, 0, [['b', 'e', 't', 'a'], ['2']], []⟩
      ⟨1, 0, 0, [['b', 'e', 't', 'a']], []⟩ = true :=
  ⟨(claim_C6 ⟨1, 0, 0, [['b', 'e', 't', 'a']], []⟩
      ⟨1, 0, 0, [['b', 'e', 't', 'a'], ['2']], []⟩ rfl rfl rfl (by decide) (by decide)).1
      (by decide) (by decide),
   (claim_C6 ⟨1, 0, 0, [['b', 'e', 't', 'a'], ['2']], []⟩
      ⟨1, 0, 0, [['b', 'e', 't', 'a']], []⟩ rfl rfl rfl (by decide) (by decide)).2
      (by decide) (by decide)⟩

theorem claim_C2_witness :
    atLeast ⟨1, 0, 0, [], []⟩ ⟨1, 0, 0, [['b', 'e', 't', 'a']], []⟩ = true ∧
    atLeast ⟨1, 0, 0, [['b', 'e', 't', 'a']], []⟩ ⟨1, 0, 0, [], []⟩ = false ∧
    atLeast ⟨1, 0, 0, [], []⟩ ⟨1, 0, 0, [], []⟩ = true :=
  ⟨(claim_C2 ⟨1, 0, 0, [], []⟩ ⟨1, 0, 0, [['b', 'e', 't', 'a']], []⟩ rfl rfl rfl).1
      rfl (by decide),
   (claim_C2 ⟨1, 0, 0, [['b', 'e', 't', 'a']], []⟩ ⟨1, 0, 0, [], []⟩ rfl rfl rfl).2.1
      (by decide) rfl,
   (claim_C2 ⟨1, 0, 0, [], []⟩ ⟨1, 0, 0, [], []⟩ rfl rfl rfl).2.2 rfl rfl⟩

/-- C1 is false as stated: with equal Normal triples, at position 0 the
identifier "0" of `min` parses as a non-negative integer while `v`'s
identifier "-5" does not, so the claim requires `AtLeast` to return true;
but the code classifies "-5" as numeric too (`strconv.Atoi` accepts a
leading sign) and compares -5 < 0, returning false. -/
theorem claim_C1_counterexample :
    specNonNegIntStr ['0'] = true ∧ specNonNegIntStr ['-', '5'] = false ∧
    numericId ['-', '5'] = true ∧
    atLeast ⟨1, 0, 0, [['-', '5']], []⟩ ⟨1, 0, 0, [['0']], []⟩ = false := by
  decide

/-- C1 (amended): in the prerelease loop with equal Normal triples, both
lists non-empty, index `i` in range on both sides and all earlier
identifiers comparing equal, each of the two identifiers at position `i`
is classified as numeric exactly when `strconv.Atoi` accepts it — an
optional leading sign followed by one or more decimal digits whose value
fits the 64-bit signed range — and when only `min`'s identifier is
numeric in this sense the result is true, while when only `v`'s is, the
result is false. -/
theorem claim_C1 (v mn : Version) (e0 : v.normal0 = mn.normal0)
    (e1 : v.normal1 = mn.normal1) (e2 : v.normal2 = mn.normal2)
    (hv : v.prerelease ≠ []) (hm : mn.prerelease ≠ [])
    (i : Nat) (hiv : i < v.prerelease.length) (him : i < mn.prerelease.length)
    (hpt : ∀ j, j < i →
      idCmp (v.prerelease.getD j []) (mn.prerelease.getD j []) = .eq) :
    (numericId (v.prerelease.getD i []) = true ↔
      AtoiOk (v.prerelease.getD i [])) ∧
    (numericId (mn.prerelease.getD i []) = true ↔
      AtoiOk (mn.prerelease.getD i [])) ∧
    (numericId (mn.prerelease.getD i []) = true →
      numericId (v.prerelease.getD i []) = false → atLeast v mn = true) ∧
    (numericId (v.prerelease.getD i []) = true →
      numericId (mn.prerelease.getD i []) = false → atLeast v mn = false) := by
  refine ⟨numericId_iff _, numericId_iff _, ?_, ?_⟩
  · intro h1 h2
    rw [atLeast_pre v mn e0 e1 e2 hv hm]
    exact preLoop_first_gt i v.prerelease mn.prerelease hiv him hpt
      (idCmp_of_mixed_gt h2 h1)
  · intro h1 h2
    rw [atLeast_pre v mn e0 e1 e2 hv hm]
    exact preLoop_first_lt i v.prerelease mn.prerelease hiv him hpt
      (idCmp_of_mixed_lt h1 h2)

theorem claim_C1_witness :
    (numericId ([['b', 'e', 't', 'a']].getD 0 []) = true ↔
      AtoiOk ([['b', 'e', 't', 'a']].getD 0 [])) ∧
    (numericId ([['1']].getD 0 []) = true ↔ AtoiOk ([['1']].getD 0 [])) ∧
    (numericId ([['1']].getD 0 []) = true →
      numericId ([['b', 'e', 't', 'a']].getD 0 []) = false →
      atLeast ⟨1, 0, 0, [['b', 'e', 't', 'a']], []⟩ ⟨1, 0, 0, [['1']], []⟩ = true) ∧
    (numericId ([['b', 'e', 't', 'a']].getD 0 []) = true →
      numericId ([['1']].getD 0 []) = false →
      atLeast ⟨1, 0, 0, [['b', 'e', 't', 'a']], []⟩ ⟨1, 0, 0, [['1']], []⟩ = false) :=
  claim_C1 ⟨1, 0, 0, [['b', 'e', 't', 'a']], []⟩ ⟨1, 0, 0, [['1']], []⟩ rfl rfl rfl
    (by decide) (by decide) 0 (by decide) (by decide)
    (fun j hj => absurd hj (Nat.not_lt_zero j))

/-! ## Splitting and joining -/

theorem goSplit_ne_nil (sep : Char) : ∀ l : Str, goSplit sep l ≠ []
  | [] => by simp [goSplit]
  | c :: cs => by
    simp only [goSplit]
    split
    · simp
    · simp

theorem goJoin_cons (sep : Char) (x : Str) (xs : List Str) (h : xs ≠ []) :
    goJoin sep (x :: xs) = x ++ sep :: goJoin sep xs := by
  cases xs with
  | nil => exact absurd rfl h
  | cons y ys => rfl

theorem goJoin_goSplit (sep : Char) : ∀ l : Str, goJoin sep (goSplit sep l) = l
  | [] => rfl
  | c :: cs => by
    have IH := goJoin_goSplit sep cs
    simp only [goSplit]
    by_cases hc : c = sep
    · rw [if_pos hc, goJoin_cons sep [] _ (goSplit_ne_nil sep cs), IH,
        List.nil_append, hc]
    · rw [if_neg hc]
      cases hq : goSplit sep cs with
      | nil => exact absurd hq (goSplit_ne_nil sep cs)
      | cons a as =>
        rw [hq] at IH
        simp only [List.headI_cons, List.tail_cons]
        cases as with
        | nil =>
          show c :: a = c :: cs
          rw [show a = cs from IH]
        | cons b bs =>
          rw [goJoin_cons sep (c :: a) (b :: bs) (by simp)]
          show c :: (a ++ sep :: goJoin sep (b :: bs)) = c :: cs
          rw [← goJoin_cons sep a (b :: bs) (by simp), IH]

theorem not_mem_goSplit (sep : Char) : ∀ (l : Str) (x : Str),
    x ∈ goSplit sep l → sep ∉ x
  | [], x, hx => by
    simp only [goSplit, List.mem_singleton] at hx
    subst hx
    simp
  | c :: cs, x, hx => by
    simp only [goSplit] at hx
    by_cases hc : c = sep
    · rw [if_pos hc] at hx
      rcases List.mem_cons.mp hx with h | h
      · subst h; simp
      · exact not_mem_goSplit sep cs x h
    · rw [if_neg hc] at hx
      cases hq : goSplit sep cs with
      | nil => exact absurd hq (goSplit_ne_nil sep cs)
      | cons a as =>
        rw [hq] at hx
        simp only [List.headI_cons, List.tail_cons] at hx
        rcases List.mem_cons.mp hx with h | h
        · subst h
          intro hmem
          rcases List.mem_cons.mp hmem with h2 | h2
          · exact hc h2.symm
          · exact not_mem_goSplit sep cs a (hq ▸ List.mem_cons_self a as) h2
        · exact not_mem_goSplit sep cs x (hq ▸ List.mem_cons_of_mem a h)

theorem goSplit_no_sep (sep : Char) : ∀ a : Str, sep ∉ a → goSplit sep a = [a]
  | [], _ => rfl
  | c :: a, h => by
    simp only [goSplit]
    have hc : ¬(c = sep) := fun hcon => h (hcon ▸ List.mem_cons_self c a)
    rw [if_neg hc, goSplit_no_sep sep a (fun hmem => h (List.mem_cons_of_mem c hmem))]
    rfl

theorem goSplit_append (sep : Char) : ∀ a b : Str, sep ∉ a →
    goSplit sep (a ++ sep :: b) = a :: goSplit sep b
  | [], b, _ => by simp [goSplit]
  | c :: a, b, h => by
    have hc : ¬(c = sep) := fun hcon => h (hcon ▸ List.mem_cons_self c a)
    show (if c = sep then [] :: goSplit sep (a ++ sep :: b)
      else (c :: (goSplit sep (a ++ sep :: b)).headI) ::
        (goSplit sep (a ++ sep :: b)).tail) = (c :: a) :: goSplit sep b
    rw [if_neg hc,
      goSplit_append sep a b (fun hmem => h (List.mem_cons_of_mem c hmem))]
    rfl

theorem goSplit_length (sep : Char) : ∀ l : Str,
    (goSplit sep l).length = l.count sep + 1
  | [] => rfl
  | c :: cs => by
    have IH := goSplit_length sep cs
    simp only [goSplit]
    by_cases hc : c = sep
    · subst hc
      rw [if_pos rfl]
      have hcount : (c :: cs).count c = cs.count c + 1 := by simp
      rw [hcount]
      simp only [List.length_cons, IH]
    · rw [if_neg hc]
      have hcount : (c :: cs).count sep = cs.count sep := by
        simp [List.count_cons, hc]
      rw [hcount]
      cases hq : goSplit sep cs with
      | nil => exact absurd hq (goSplit_ne_nil sep cs)
      | cons a as =>
        rw [hq] at IH
        simp only [List.headI_cons, List.tail_cons, List.length_cons] at IH ⊢
        omega

/-- C4: every input containing two or more plus characters fails with
`ErrMultiMeta`, before any other validation runs. -/
theorem claim_C4 (s : Str) (h : 2 ≤ s.count '+') : new s = .error .multiMeta := by
  have hlen : 3 ≤ (goSplit '+' s).length := by
    rw [goSplit_length]
    omega
  unfold new
  cases hq : goSplit '+' s with
  | nil =>
    have h2 := hq ▸ hlen
    simp at h2
  | cons a as =>
    cases as with
    | nil =>
      have h2 := hq ▸ hlen
      simp at h2
    | cons b bs =>
      cases bs with
      | nil =>
        have h2 := hq ▸ hlen
        simp at h2
      | cons d ds => rfl

theorem claim_C4_witness :
    new ['1', '.', '1', '.', '1', '-', 'b', 'e', 't', 'a',
      '+', 'o', 'n', 'e', '+', 't', 'w', 'o'] = .error .multiMeta :=
  claim_C4 ['1', '.', '1', '.', '1', '-', 'b', 'e', 't', 'a',
    '+', 'o', 'n', 'e', '+', 't', 'w', 'o'] (by decide)

/-! ## Inverting a successful parse -/

theorem findBad_none_iff (p : Char → Bool) : ∀ s : Str,
    findBad p s = none ↔ ∀ c ∈ s, p c = false
  | [] => by simp [findBad]
  | c :: cs => by
    simp only [findBad]
    by_cases hc : p c = true
    · rw [if_pos hc]
      simp [hc]
    · rw [if_neg hc]
      have hc' : p c = false := Bool.eq_false_iff.mpr hc
      simp [Option.map_eq_none', findBad_none_iff p cs, hc']

theorem badNormal_false_iff (c : Char) :
    badNormalChar c = false ↔ isDigitC c = true := by
  simp [badNormalChar, isDigitC, not_lt]

theorem atoi_of_scan (s : Str) (hscan : findBad badNormalChar s = none)
    {n : Int} (hat : atoi s = some n) :
    0 ≤ n ∧ n ≤ (int64Max : Int) ∧ n = (digitsVal s : Int) := by
  have hall : s.all isDigitC = true := by
    rw [List.all_eq_true]
    intro c hc
    exact (badNormal_false_iff c).mp
      ((findBad_none_iff badNormalChar s).mp hscan c hc)
  have hne : s ≠ [] := by
    intro hnil
    subst hnil
    simp [atoi] at hat
  rw [atoi_digits s hne hall] at hat
  by_cases hb : digitsVal s ≤ int64Max
  · rw [if_pos hb] at hat
    injection hat with hat
    refine ⟨?_, ?_, hat.symm⟩
    · rw [← hat]
      exact Int.natCast_nonneg _
    · rw [← hat]
      exact_mod_cast hb
  · rw [if_neg hb] at hat
    cases hat

theorem parseMain_ok (m0 mv : Str) (v : Version) (h : parseMain m0 mv = .ok v) :
    ∃ s0 s1 s2,
      goSplit '.' (goSplit '-' m0).headI = [s0, s1, s2] ∧
      findBad badNormalChar s0 = none ∧ findBad badNormalChar s1 = none ∧
      findBad badNormalChar s2 = none ∧
      atoi s0 = some v.normal0 ∧ atoi s1 = some v.normal1 ∧
      atoi s2 = some v.normal2 ∧ v.meta = mv ∧
      (goJoin '-' (goSplit '-' m0).tail = [] ∧ v.prerelease = [] ∨
       goJoin '-' (goSplit '-' m0).tail ≠ [] ∧
       findBad badIdentChar (goJoin '-' (goSplit '-' m0).tail) = none ∧
       v.prerelease = goSplit '.' (goJoin '-' (goSplit '-' m0).tail)) := by
  simp only [parseMain] at h
  split at h
  · rename_i s0 s1 s2 heq
    split at h
    · exact Except.noConfusion h
    · rename_i hf0
      split at h
      · exact Except.noConfusion h
      · rename_i n0 ha0
        split at h
        · exact Except.noConfusion h
        · rename_i hf1
          split at h
          · exact Except.noConfusion h
          · rename_i n1 ha1
            split at h
            · exact Except.noConfusion h
            · rename_i hf2
              split at h
              · exact Except.noConfusion h
              · rename_i n2 ha2
                split at h
                · rename_i hpre
                  injection h with h
                  subst h
                  exact ⟨s0, s1, s2, heq, hf0, hf1, hf2, ha0, ha1, ha2, rfl,
                    Or.inl ⟨hpre, rfl⟩⟩
                · rename_i hpre
                  split at h
                  · exact Except.noConfusion h
                  · rename_i hfp
                    injection h with h
                    subst h
                    exact ⟨s0, s1, s2, heq, hf0, hf1, hf2, ha0, ha1, ha2, rfl,
                      Or.inr ⟨hpre, hfp, rfl⟩⟩
  · exact Except.noConfusion h

theorem new_ok (s : Str) (v : Version) (h : new s = .ok v) :
    ∃ mv, findBad badIdentChar mv = none ∧
      parseMain (goSplit '+' s).headI mv = .ok v ∧
      ((goSplit '+' s).length = 1 ∧ mv = [] ∨
        goSplit '+' s = [(goSplit '+' s).headI, mv]) := by
  unfold new at h
  split at h
  · rename_i m0 heq
    refine ⟨[], rfl, ?_, Or.inl ⟨by rw [heq]; rfl, rfl⟩⟩
    rw [heq]
    simpa using h
  · rename_i m0 m1 heq
    split at h
    · exact Except.noConfusion h
    · rename_i hfm
      refine ⟨m1, hfm, ?_, Or.inr ?_⟩
      · rw [heq]
        simpa using h
      · rw [heq]
        rfl
  · exact Except.noConfusion h

/-- C9: every `Version` a successful `New` returns carries a normal
triple of three integers (three fields, mirroring `[3]int`) that are all
non-negative; digit-only segments whose conversion fails make `New`
return the conversion error, never a `Version`. -/
theorem claim_C9 (s : Str) (v : Version) (h : new s = .ok v) :
    0 ≤ v.normal0 ∧ 0 ≤ v.normal1 ∧ 0 ≤ v.normal2 := by
  obtain ⟨mv, _, hpm, _⟩ := new_ok s v h
  obtain ⟨s0, s1, s2, _, hf0, hf1, hf2, ha0, ha1, ha2, _, _⟩ :=
    parseMain_ok _ _ _ hpm
  exact ⟨(atoi_of_scan s0 hf0 ha0).1, (atoi_of_scan s1 hf1 ha1).1,
    (atoi_of_scan s2 hf2 ha2).1⟩

theorem claim_C9_witness :
    0 ≤ (Version.mk 1 0 0 [] []).normal0 ∧
    0 ≤ (Version.mk 1 0 0 [] []).normal1 ∧
    0 ≤ (Version.mk 1 0 0 [] []).normal2 :=
  claim_C9 ['1', '.', '0', '.', '0'] (Version.mk 1 0 0 [] []) rfl

/-! ## Decimal formatting -/

theorem isDigitC_ofNat (m : Nat) (h : m < 10) :
    isDigitC (Char.ofNat (48 + m)) = true := by
  interval_cases m <;> decide

theorem charVal_ofNat (m : Nat) (h : m < 10) :
    (Char.ofNat (48 + m)).toNat - 48 = m := by
  interval_cases m <;> decide

theorem natToChars_digits (n : Nat) : (natToChars n).all isDigitC = true := by
  induction n using Nat.strong_induction_on with
  | _ n IH =>
    rw [natToChars]
    split
    · rename_i h
      simp only [List.all_cons, List.all_nil, Bool.and_true]
      exact isDigitC_ofNat n h
    · rename_i h
      rw [List.all_append, IH (n / 10) (Nat.div_lt_self (by omega) (by omega)),
        Bool.true_and]
      simp only [List.all_cons, List.all_nil, Bool.and_true]
      exact isDigitC_ofNat (n % 10) (Nat.mod_lt _ (by omega))

theorem natToChars_ne_nil (n : Nat) : natToChars n ≠ [] := by
  rw [natToChars]
  split
  · simp
  · simp

theorem digitsVal_append_digit (ds : Str) (c : Char) :
    digitsVal (ds ++ [c]) = digitsVal ds * 10 + (c.toNat - 48) := by
  unfold digitsVal
  rw [List.foldl_append]
  rfl

theorem digitsVal_natToChars (n : Nat) : digitsVal (natToChars n) = n := by
  induction n using Nat.strong_induction_on with
  | _ n IH =>
    rw [natToChars]
    split
    · rename_i h
      show 0 * 10 + ((Char.ofNat (48 + n)).toNat - 48) = n
      have := charVal_ofNat n h
      omega
    · rename_i h
      rw [digitsVal_append_digit,
        IH (n / 10) (Nat.div_lt_self (by omega) (by omega)),
        charVal_ofNat (n % 10) (Nat.mod_lt _ (by omega))]
      omega

theorem atoi_natToChars (n : Nat) (h : n ≤ int64Max) :
    atoi (natToChars n) = some (n : Int) := by
  rw [atoi_digits _ (natToChars_ne_nil n) (natToChars_digits n),
    digitsVal_natToChars, if_pos h]

theorem findBad_natToChars (n : Nat) :
    findBad badNormalChar (natToChars n) = none := by
  rw [findBad_none_iff]
  intro c hc
  have hall := natToChars_digits n
  rw [List.all_eq_true] at hall
  exact (badNormal_false_iff c).mpr (hall c hc)

theorem natToChars_not_mem (n : Nat) (c : Char) (hc : isDigitC c = false) :
    c ∉ natToChars n := by
  intro hmem
  have hall := natToChars_digits n
  rw [List.all_eq_true] at hall
  rw [hall c hmem] at hc
  cases hc

theorem no_plus_of_validIdent (p : Str) (h : findBad badIdentChar p = none) :
    '+' ∉ p := by
  intro hmem
  have := (findBad_none_iff badIdentChar p).mp h '+' hmem
  exact absurd this (by decide)

theorem intToChars_nonneg (n : Int) (h : 0 ≤ n) :
    intToChars n = natToChars n.toNat := by
  unfold intToChars
  rw [if_neg (not_lt.mpr h)]

theorem render_parts (v : Version) :
    render v =
      (intToChars v.normal0 ++ '.' ::
        (intToChars v.normal1 ++ '.' :: intToChars v.normal2))
      ++ (if goJoin '.' v.prerelease ≠ [] then '-' :: goJoin '.' v.prerelease else [])
      ++ (if v.meta ≠ [] then '+' :: v.meta else []) := by
  simp only [render]
  by_cases h1 : goJoin '.' v.prerelease ≠ [] <;> by_cases h2 : v.meta ≠ [] <;>
    simp [h1, h2, List.append_assoc]

/-! ## The round trip -/

/-- Every `Version` a successful parse returns is well-formed. -/
theorem wf_of_new (s : Str) (v : Version) (h : new s = .ok v) : Wf v := by
  obtain ⟨mv, hfm, hpm, _⟩ := new_ok s v h
  obtain ⟨s0, s1, s2, _, hf0, hf1, hf2, ha0, ha1, ha2, hmv, hpre⟩ :=
    parseMain_ok _ _ _ hpm
  obtain ⟨b00, b01, _⟩ := atoi_of_scan s0 hf0 ha0
  obtain ⟨b10, b11, _⟩ := atoi_of_scan s1 hf1 ha1
  obtain ⟨b20, b21, _⟩ := atoi_of_scan s2 hf2 ha2
  refine ⟨b00, b01, b10, b11, b20, b21, ?_, ?_⟩
  · rw [hmv]
    exact hfm
  · rcases hpre with ⟨_, hp⟩ | ⟨hne, hfp, hp⟩
    · exact Or.inl hp
    · exact Or.inr ⟨_, hne, hfp, hp⟩

/-- Re-parsing the rendering of a well-formed `Version` returns it. -/
theorem new_render_of_wf (v : Version) (hwf : Wf v) : new (render v) = .ok v := by
  obtain ⟨h00, h01, h10, h11, h20, h21, hmeta, hpre⟩ := hwf
  have hminusd : ∀ m : Nat, '-' ∉ natToChars m :=
    fun m => natToChars_not_mem m '-' (by decide)
  have hplusd : ∀ m : Nat, '+' ∉ natToChars m :=
    fun m => natToChars_not_mem m '+' (by decide)
  have hdotd : ∀ m : Nat, '.' ∉ natToChars m :=
    fun m => natToChars_not_mem m '.' (by decide)
  have hminus_nrm : '-' ∉ natToChars v.normal0.toNat ++ '.' ::
      (natToChars v.normal1.toNat ++ '.' :: natToChars v.normal2.toNat) := by
    simp only [List.mem_append, List.mem_cons]
    rintro (h | h | h | h | h)
    · exact hminusd _ h
    · exact absurd h (by decide)
    · exact hminusd _ h
    · exact absurd h (by decide)
    · exact hminusd _ h
  have hplus_nrm : '+' ∉ natToChars v.normal0.toNat ++ '.' ::
      (natToChars v.normal1.toNat ++ '.' :: natToChars v.normal2.toNat) := by
    simp only [List.mem_append, List.mem_cons]
    rintro (h | h | h | h | h)
    · exact hplusd _ h
    · exact absurd h (by decide)
    · exact hplusd _ h
    · exact absurd h (by decide)
    · exact hplusd _ h
  have hsd : goSplit '.' (natToChars v.normal0.toNat ++ '.' ::
      (natToChars v.normal1.toNat ++ '.' :: natToChars v.normal2.toNat)) =
      [natToChars v.normal0.toNat, natToChars v.normal1.toNat,
        natToChars v.normal2.toNat] := by
    rw [goSplit_append '.' _ _ (hdotd _), goSplit_append '.' _ _ (hdotd _),
      goSplit_no_sep '.' _ (hdotd _)]
  have hat0 : atoi (natToChars v.normal0.toNat) = some v.normal0 := by
    rw [atoi_natToChars _ (Int.toNat_le.mpr h01), Int.toNat_of_nonneg h00]
  have hat1 : atoi (natToChars v.normal1.toNat) = some v.normal1 := by
    rw [atoi_natToChars _ (Int.toNat_le.mpr h11), Int.toNat_of_nonneg h10]
  have hat2 : atoi (natToChars v.normal2.toNat) = some v.normal2 := by
    rw [atoi_natToChars _ (Int.toNat_le.mpr h21), Int.toNat_of_nonneg h20]
  rw [render_parts, intToChars_nonneg _ h00, intToChars_nonneg _ h10,
    intToChars_nonneg _ h20]
  rcases hpre with hp | ⟨p, hpne, hpvalid, hp⟩
  · -- no prerelease identifiers
    rw [hp]
    have hveq : (⟨v.normal0, v.normal1, v.normal2, [], v.meta⟩ : Version) = v := by
      rw [← hp]
    rw [show goJoin '.' ([] : List Str) = [] from rfl, if_neg (by simp),
      List.append_nil]
    by_cases hm : v.meta = []
    · rw [hm, if_neg (by simp), List.append_nil]
      simp only [new, goSplit_no_sep '+' _ hplus_nrm, parseMain,
        goSplit_no_sep '-' _ hminus_nrm, List.headI_cons, List.tail_cons, hsd,
        findBad_natToChars, hat0, hat1, hat2, goJoin]
      rw [if_pos trivial, ← hm, hveq]
    · rw [if_pos hm]
      have hplus_meta : '+' ∉ v.meta := no_plus_of_validIdent v.meta hmeta
      have hsp : goSplit '+' ((natToChars v.normal0.toNat ++ '.' ::
          (natToChars v.normal1.toNat ++ '.' :: natToChars v.normal2.toNat))
          ++ '+' :: v.meta) =
          [natToChars v.normal0.toNat ++ '.' ::
            (natToChars v.normal1.toNat ++ '.' :: natToChars v.normal2.toNat),
           v.meta] := by
        rw [goSplit_append '+' _ _ hplus_nrm, goSplit_no_sep '+' _ hplus_meta]
      simp only [new, hsp, hmeta, parseMain, goSplit_no_sep '-' _ hminus_nrm,
        List.headI_cons, List.tail_cons, hsd, findBad_natToChars, hat0, hat1,
        hat2, goJoin]
      rw [if_pos trivial, hveq]
  · -- prerelease identifiers present: v.prerelease = goSplit '.' p
    rw [hp]
    have hveq : (⟨v.normal0, v.normal1, v.normal2, goSplit '.' p, v.meta⟩ :
        Version) = v := by
      rw [← hp]
    rw [goJoin_goSplit '.' p, if_pos hpne]
    have hplus_p : '+' ∉ p := no_plus_of_validIdent p hpvalid
    have hplus_np : '+' ∉ (natToChars v.normal0.toNat ++ '.' ::
        (natToChars v.normal1.toNat ++ '.' :: natToChars v.normal2.toNat))
        ++ '-' :: p := by
      simp only [List.mem_append, List.mem_cons]
      rintro ((h | h | h | h | h) | h | h)
      · exact hplusd _ h
      · exact absurd h (by decide)
      · exact hplusd _ h
      · exact absurd h (by decide)
      · exact hplusd _ h
      · exact absurd h (by decide)
      · exact hplus_p h
    have hsm2 : goSplit '-' ((natToChars v.normal0.toNat ++ '.' ::
        (natToChars v.normal1.toNat ++ '.' :: natToChars v.normal2.toNat))
        ++ '-' :: p) =
        (natToChars v.normal0.toNat ++ '.' ::
          (natToChars v.normal1.toNat ++ '.' :: natToChars v.normal2.toNat)) ::
          goSplit '-' p :=
      goSplit_append '-' _ _ hminus_nrm
    have hjm : goJoin '-' (goSplit '-' p) = p := goJoin_goSplit '-' p
    by_cases hm : v.meta = []
    · rw [hm, if_neg (by simp), List.append_nil]
      simp only [new, goSplit_no_sep '+' _ hplus_np, parseMain, hsm2,
        List.headI_cons, List.tail_cons, hsd, findBad_natToChars, hat0, hat1,
        hat2, hjm]
      rw [if_neg hpne]
      simp only [hpvalid]
      rw [← hm, hveq]
    · rw [if_pos hm]
      have hplus_meta : '+' ∉ v.meta := no_plus_of_validIdent v.meta hmeta
      have hsp : goSplit '+' (((natToChars v.normal0.toNat ++ '.' ::
          (natToChars v.normal1.toNat ++ '.' :: natToChars v.normal2.toNat))
          ++ '-' :: p) ++ '+' :: v.meta) =
          [(natToChars v.normal0.toNat ++ '.' ::
            (natToChars v.normal1.toNat ++ '.' :: natToChars v.normal2.toNat))
            ++ '-' :: p,
           v.meta] := by
        rw [goSplit_append '+' _ _ hplus_np, goSplit_no_sep '+' _ hplus_meta]
      simp only [new, hsp, hmeta, parseMain, hsm2, List.headI_cons,
        List.tail_cons, hsd, findBad_natToChars, hat0, hat1, hat2, hjm]
      rw [if_neg hpne]
      simp only [hpvalid]
      rw [hveq]

/-! ## Length of the canonical rendering -/

theorem digit_toNat (c : Char) (h : isDigitC c = true) :
    48 ≤ c.toNat ∧ c.toNat ≤ 57 := by
  simp only [isDigitC, Bool.and_eq_true, decide_eq_true_eq] at h
  obtain ⟨h1, h2⟩ := h
  constructor
  · exact_mod_cast h1
  · exact_mod_cast h2

theorem digitsVal_lt : ∀ ds : Str, ds.all isDigitC = true →
    digitsVal ds < 10 ^ ds.length := by
  intro ds
  induction ds using List.reverseRecOn with
  | nil => intro _; decide
  | append_singleton xs c IH =>
    intro h
    rw [List.all_append] at h
    simp only [List.all_cons, List.all_nil, Bool.and_true] at h
    have hxs : xs.all isDigitC = true := by
      cases hq : xs.all isDigitC
      · rw [hq, Bool.false_and] at h; cases h
      · rfl
    have hc : isDigitC c = true := by
      cases hq : isDigitC c
      · rw [hq, Bool.and_false] at h; cases h
      · rfl
    have hcv := digit_toNat c hc
    have hlt := IH hxs
    rw [digitsVal_append_digit, List.length_append]
    simp only [List.length_cons, List.length_nil, Nat.zero_add]
    have hpow : 10 ^ (xs.length + 1) = 10 ^ xs.length * 10 := pow_succ 10 xs.length
    omega

theorem natToChars_length_le (k : Nat) : ∀ m : Nat, 1 ≤ k → m < 10 ^ k →
    (natToChars m).length ≤ k := by
  induction k with
  | zero => omega
  | succ k IH =>
    intro m _ hm
    rw [natToChars]
    split
    · rename_i h10
      simp only [List.length_cons, List.length_nil]
      omega
    · rename_i h10
      have hk1 : 1 ≤ k := by
        rcases Nat.eq_zero_or_pos k with hk | hk
        · subst hk
          simp at hm
          omega
        · exact hk
      have hdiv : m / 10 < 10 ^ k := by
        have hpow : 10 ^ (k + 1) = 10 ^ k * 10 := pow_succ 10 k
        omega
      have := IH (m / 10) hk1 hdiv
      rw [List.length_append]
      simp only [List.length_cons, List.length_nil]
      omega

theorem all_digits_of_scan (s : Str) (hscan : findBad badNormalChar s = none) :
    s.all isDigitC = true := by
  rw [List.all_eq_true]
  intro c hc
  exact (badNormal_false_iff c).mp
    ((findBad_none_iff badNormalChar s).mp hscan c hc)

theorem atoi_some_ne_nil {s : Str} {n : Int} (h : atoi s = some n) : s ≠ [] := by
  intro hnil
  subst hnil
  simp [atoi] at h

theorem canonical_len_le (s : Str) (hscan : findBad badNormalChar s = none)
    {n : Int} (hat : atoi s = some n) :
    (natToChars n.toNat).length ≤ s.length := by
  obtain ⟨hnn, _, hval⟩ := atoi_of_scan s hscan hat
  have hall := all_digits_of_scan s hscan
  have hne : s ≠ [] := atoi_some_ne_nil hat
  have hlen1 : 1 ≤ s.length := by
    cases s with
    | nil => exact absurd rfl hne
    | cons a as => simp
  have htn : n.toNat = digitsVal s := by omega
  rw [htn]
  exact natToChars_length_le s.length (digitsVal s) hlen1 (digitsVal_lt s hall)

/-- The canonical rendering of a well-formed metadata-free `Version`
contains no plus sign. -/
theorem render_no_plus (v : Version) (hwf : Wf v) (hm : v.meta = []) :
    '+' ∉ render v := by
  obtain ⟨h00, _, h10, _, h20, _, _, hpre⟩ := hwf
  have hplusd : ∀ m : Nat, '+' ∉ natToChars m :=
    fun m => natToChars_not_mem m '+' (by decide)
  intro hmem
  rw [render_parts, hm] at hmem
  rcases hpre with hp | ⟨p, hpne, hpvalid, hp⟩
  · rw [hp] at hmem
    simp only [goJoin] at hmem
    rw [if_neg (by simp), if_neg (by simp), List.append_nil, List.append_nil,
      intToChars_nonneg _ h00, intToChars_nonneg _ h10,
      intToChars_nonneg _ h20] at hmem
    simp only [List.mem_append, List.mem_cons] at hmem
    rcases hmem with h | h | h | h | h
    · exact hplusd _ h
    · exact absurd h (by decide)
    · exact hplusd _ h
    · exact absurd h (by decide)
    · exact hplusd _ h
  · rw [hp, goJoin_goSplit, if_pos hpne, if_neg (by simp), List.append_nil,
      intToChars_nonneg _ h00, intToChars_nonneg _ h10,
      intToChars_nonneg _ h20] at hmem
    rw [List.mem_append] at hmem
    rcases hmem with h | h
    · simp only [List.mem_append, List.mem_cons] at h
      rcases h with h | h | h | h | h
      · exact hplusd _ h
      · exact absurd h (by decide)
      · exact hplusd _ h
      · exact absurd h (by decide)
      · exact hplusd _ h
    · rcases List.mem_cons.mp h with h | h
      · exact absurd h (by decide)
      · exact no_plus_of_validIdent p hpvalid h

/-- The canonical rendering of a metadata-free parse result is no longer
than the string it was parsed from. -/
theorem render_length_le (t : Str) (v : Version) (h1 : parseMain t [] = .ok v) :
    (render v).length ≤ t.length := by
  obtain ⟨s0, s1, s2, hsplit3, hf0, hf1, hf2, ha0, ha1, ha2, hmv, hprest⟩ :=
    parseMain_ok t [] v h1
  obtain ⟨h00, _, _⟩ := atoi_of_scan s0 hf0 ha0
  obtain ⟨h10, _, _⟩ := atoi_of_scan s1 hf1 ha1
  obtain ⟨h20, _, _⟩ := atoi_of_scan s2 hf2 ha2
  have hc0 := canonical_len_le s0 hf0 ha0
  have hc1 := canonical_len_le s1 hf1 ha1
  have hc2 := canonical_len_le s2 hf2 ha2
  have hL := goJoin_goSplit '-' t
  have hnreq : (goSplit '-' t).headI = s0 ++ '.' :: (s1 ++ '.' :: s2) := by
    rw [← goJoin_goSplit '.' (goSplit '-' t).headI, hsplit3,
      goJoin_cons '.' s0 [s1, s2] (by simp), goJoin_cons '.' s1 [s2] (by simp)]
    rfl
  have hdlen : (intToChars v.normal0 ++ '.' ::
      (intToChars v.normal1 ++ '.' :: intToChars v.normal2)).length ≤
      (goSplit '-' t).headI.length := by
    rw [intToChars_nonneg _ h00, intToChars_nonneg _ h10,
      intToChars_nonneg _ h20, hnreq]
    simp only [List.length_append, List.length_cons]
    omega
  rw [render_parts, hmv]
  cases hsplm : goSplit '-' t with
  | nil => exact absurd hsplm (goSplit_ne_nil '-' t)
  | cons nr rest =>
    rw [hsplm] at hL hdlen hprest
    simp only [List.headI_cons, List.tail_cons] at hdlen hprest
    cases rest with
    | nil =>
      have ht : t = nr := by rw [← hL]; rfl
      rcases hprest with ⟨_, hpre⟩ | ⟨hpne, _, _⟩
      · rw [hpre, show goJoin '.' ([] : List Str) = [] from rfl,
          if_neg (by simp), List.append_nil, if_neg (by simp), List.append_nil, ht]
        exact hdlen
      · simp only [goJoin, ne_eq, not_true_eq_false] at hpne
    | cons r rs =>
      have ht : t.length = nr.length + 1 + (goJoin '-' (r :: rs)).length := by
        rw [← hL, goJoin_cons '-' nr (r :: rs) (by simp), List.length_append]
        simp only [List.length_cons]
        omega
      rcases hprest with ⟨_, hpre⟩ | ⟨hpne, _, hpre⟩
      · rw [hpre, show goJoin '.' ([] : List Str) = [] from rfl,
          if_neg (by simp), List.append_nil, if_neg (by simp), List.append_nil]
        omega
      · rw [hpre, goJoin_goSplit, if_pos hpne, if_neg (by simp), List.append_nil,
          List.length_append]
        simp only [List.length_cons]
        omega

/-- C3: whenever `New` succeeds on an input and returns `v`, parsing the
formatted `String(v)` succeeds and returns a `Version` equal to `v`
(component-wise: same Normal triple, same Prerelease sequence, same
Meta), even when the formatted string differs from the original input. -/
theorem claim_C3 (s : Str) (v : Version) (h : new s = .ok v) :
    new (render v) = .ok v :=
  new_render_of_wf v (wf_of_new s v h)

theorem claim_C3_witness :
    new (render (Version.mk 1 0 0 [['b', 'e', 't', 'a'], ['0', '1']] ['m'])) =
      .ok (Version.mk 1 0 0 [['b', 'e', 't', 'a'], ['0', '1']] ['m']) :=
  claim_C3
    ['0', '1', '.', '0', '.', '0', '-', 'b', 'e', 't', 'a', '.', '0', '1', '+', 'm']
    (Version.mk 1 0 0 [['b', 'e', 't', 'a'], ['0', '1']] ['m']) rfl

/-- C10: appending a lone '+' (an empty metadata segment) to an input
that otherwise parses leaves parsing successful with `Meta` empty, and
`String` omits the '+' entirely, so the formatted output is strictly
shorter than the input yet re-parses to an equal `Version`. -/
theorem claim_C10 (t : Str) (v : Version) (hplus : '+' ∉ t)
    (h : new t = .ok v) :
    new (t ++ ['+']) = .ok v ∧ v.meta = [] ∧ '+' ∉ render v ∧
    (render v).length < (t ++ ['+']).length ∧ new (render v) = .ok v := by
  have hsp1 : goSplit '+' t = [t] := goSplit_no_sep '+' t hplus
  have h1 : parseMain t [] = .ok v := by
    unfold new at h
    rw [hsp1] at h
    exact h
  have hwf : Wf v := wf_of_new t v h
  have hmv : v.meta = [] := by
    obtain ⟨s0, s1, s2, _, _, _, _, _, _, _, hmv, _⟩ := parseMain_ok t [] v h1
    exact hmv
  refine ⟨?_, hmv, render_no_plus v hwf hmv, ?_, new_render_of_wf v hwf⟩
  · have hsp2 : goSplit '+' (t ++ ['+']) = [t, []] := by
      rw [show t ++ ['+'] = t ++ '+' :: [] from rfl, goSplit_append '+' t [] hplus]
      rfl
    unfold new
    rw [hsp2]
    exact h1
  · have hle := render_length_le t v h1
    rw [List.length_append]
    simp only [List.length_cons, List.length_nil]
    omega

theorem claim_C10_witness :
    new (['1', '.', '0', '.', '0', '-', 'b', 'e', 't', 'a'] ++ ['+']) =
      .ok (Version.mk 1 0 0 [['b', 'e', 't', 'a']] []) ∧
    (Version.mk 1 0 0 [['b', 'e', 't', 'a']] []).meta = [] ∧
    '+' ∉ render (Version.mk 1 0 0 [['b', 'e', 't', 'a']] []) ∧
    (render (Version.mk 1 0 0 [['b', 'e', 't', 'a']] [])).length <
      (['1', '.', '0', '.', '0', '-', 'b', 'e', 't', 'a'] ++ ['+']).length ∧
    new (render (Version.mk 1 0 0 [['b', 'e', 't', 'a']] [])) =
      .ok (Version.mk 1 0 0 [['b', 'e', 't', 'a']] []) :=
  claim_C10 ['1', '.', '0', '.', '0', '-', 'b', 'e', 't', 'a']
    (Version.mk 1 0 0 [['b', 'e', 't', 'a']] []) (by decide) rfl

/-! ## Position of a normal-section character error -/

theorem findBad_append_some (p : Char → Bool) : ∀ (a b : Str) (x : Char × Nat),
    findBad p a = some x → findBad p (a ++ b) = some x
  | [], _, _, h => Option.noConfusion h
  | c :: a, b, x, h => by
    simp only [findBad] at h
    show (if p c = true then some (c, 0)
      else (findBad p (a ++ b)).map (fun z => (z.1, z.2 + 1))) = some x
    by_cases hc : p c = true
    · rw [if_pos hc] at h ⊢
      exact h
    · rw [if_neg hc] at h ⊢
      cases hq : findBad p a with
      | none =>
        rw [hq] at h
        exact Option.noConfusion h
      | some y =>
        rw [hq] at h
        rw [findBad_append_some p a b y hq]
        exact h

theorem findBad_append_none (p : Char → Bool) : ∀ (a b : Str),
    findBad p a = none →
    findBad p (a ++ b) = (findBad p b).map (fun x => (x.1, a.length + x.2))
  | [], b, _ => by
    cases hq : findBad p b with
    | none => simp [hq]
    | some y => simp [hq]
  | c :: a, b, h => by
    simp only [findBad] at h
    show (if p c = true then some (c, 0)
      else (findBad p (a ++ b)).map (fun z => (z.1, z.2 + 1))) =
      (findBad p b).map (fun z => (z.1, (c :: a).length + z.2))
    by_cases hc : p c = true
    · rw [if_pos hc] at h
      exact Option.noConfusion h
    · rw [if_neg hc] at h ⊢
      cases hq : findBad p a with
      | some y =>
        rw [hq] at h
        exact Option.noConfusion h
      | none =>
        rw [findBad_append_none p a b hq]
        cases hq2 : findBad p b with
        | none => simp
        | some y =>
          simp only [Option.map_some', List.length_cons]
          have hh : a.length + y.2 + 1 = a.length + 1 + y.2 := by omega
          rw [hh]

theorem findBad_congr (p q : Char → Bool) : ∀ s : Str, (∀ c ∈ s, p c = q c) →
    findBad p s = findBad q s
  | [], _ => rfl
  | c :: cs, h => by
    simp only [findBad]
    rw [h c (List.mem_cons_self c cs),
      findBad_congr p q cs (fun d hd => h d (List.mem_cons_of_mem c hd))]

theorem parseMain_err_normal (m0 mv : Str) (r : Char) (p : Nat)
    (h : parseMain m0 mv = .error (.parseErr "normal" r p)) :
    ∃ s0 s1 s2, goSplit '.' (goSplit '-' m0).headI = [s0, s1, s2] ∧
      (findBad badNormalChar s0 = some (r, p) ∨
       (findBad badNormalChar s0 = none ∧
        ∃ j, findBad badNormalChar s1 = some (r, j) ∧ p = s0.length + 1 + j) ∨
       (findBad badNormalChar s0 = none ∧ findBad badNormalChar s1 = none ∧
        ∃ j, findBad badNormalChar s2 = some (r, j) ∧
          p = s0.length + 1 + (s1.length + 1) + j)) := by
  simp only [parseMain] at h
  split at h
  · rename_i s0 s1 s2 heq
    refine ⟨s0, s1, s2, heq, ?_⟩
    split at h
    · rename_i x hx
      injection h with h
      injection h with h1 h2 h3
      subst h2
      subst h3
      first
        | exact Or.inl rfl
        | exact Or.inl (by rw [hx])
    · rename_i hf0
      split at h
      · injection h with h
        exact SemError.noConfusion h
      · rename_i n0 ha0
        split at h
        · rename_i x hx
          injection h with h
          injection h with h1 h2 h3
          subst h2
          exact Or.inr (Or.inl ⟨hf0, x.2, by first | rfl | rw [hx], h3.symm⟩)
        · rename_i hf1
          split at h
          · injection h with h
            exact SemError.noConfusion h
          · rename_i n1 ha1
            split at h
            · rename_i x hx
              injection h with h
              injection h with h1 h2 h3
              subst h2
              exact Or.inr (Or.inr ⟨hf0, hf1, x.2, by first | rfl | rw [hx], h3.symm⟩)
            · rename_i hf2
              split at h
              · injection h with h
                exact SemError.noConfusion h
              · rename_i n2 ha2
                split at h
                · exact Except.noConfusion h
                · split at h
                  · rename_i x hx
                    injection h with h
                    injection h with h1 h2 h3
                    exact absurd h1 (by decide)
                  · exact Except.noConfusion h
  · injection h with h
    exact SemError.noConfusion h

theorem new_err_normal (s : Str) (r : Char) (p : Nat)
    (h : new s = .error (.parseErr "normal" r p)) :
    ∃ mv, parseMain (goSplit '+' s).headI mv = .error (.parseErr "normal" r p) := by
  unfold new at h
  split at h
  · rename_i m0 heq
    refine ⟨[], ?_⟩
    rw [heq]
    simpa using h
  · rename_i m0 m1 heq
    split at h
    · rename_i x hx
      injection h with h
      injection h with h1 h2 h3
      exact absurd h1 (by decide)
    · rename_i hfm
      refine ⟨m1, ?_⟩
      rw [heq]
      simpa using h
  · injection h with h
    exact SemError.noConfusion h

/-- C5: when `New` rejects an input with a normal-section character
error, the reported character is the first (in left-to-right scan order)
character of the entire normal-version substring that is neither a digit
nor a dot, and the reported position is that character's index within
that substring, the earlier segments and their separating dots included
in the offset. -/
theorem claim_C5 (s : Str) (r : Char) (p : Nat)
    (h : new s = .error (.parseErr "normal" r p)) :
    findBad badNormalNonDot (goSplit '-' (goSplit '+' s).headI).headI =
      some (r, p) := by
  obtain ⟨mv, hpm⟩ := new_err_normal s r p h
  obtain ⟨s0, s1, s2, hsplit3, hcase⟩ := parseMain_err_normal _ mv r p hpm
  have hnr : (goSplit '-' (goSplit '+' s).headI).headI =
      s0 ++ '.' :: (s1 ++ '.' :: s2) := by
    rw [← goJoin_goSplit '.' (goSplit '-' (goSplit '+' s).headI).headI, hsplit3,
      goJoin_cons '.' s0 [s1, s2] (by simp), goJoin_cons '.' s1 [s2] (by simp)]
    rfl
  have hd0 : '.' ∉ s0 := not_mem_goSplit '.' _ s0 (by rw [hsplit3]; simp)
  have hd1 : '.' ∉ s1 := not_mem_goSplit '.' _ s1 (by rw [hsplit3]; simp)
  have hd2 : '.' ∉ s2 := not_mem_goSplit '.' _ s2 (by rw [hsplit3]; simp)
  have hcongr : ∀ u : Str, '.' ∉ u →
      findBad badNormalNonDot u = findBad badNormalChar u := by
    intro u hu
    refine findBad_congr _ _ u (fun c hc => ?_)
    unfold badNormalNonDot
    have hcd : ¬(c = '.') := fun hcon => hu (hcon ▸ hc)
    simp [hcd]
  rw [hnr]
  rcases hcase with hk | ⟨hf0, j, hk, hp⟩ | ⟨hf0, hf1, j, hk, hp⟩
  · exact findBad_append_some badNormalNonDot s0 _ (r, p)
      (by rw [hcongr s0 hd0]; exact hk)
  · rw [findBad_append_none badNormalNonDot s0 _
      (by rw [hcongr s0 hd0]; exact hf0)]
    rw [show findBad badNormalNonDot ('.' :: (s1 ++ '.' :: s2)) =
        (findBad badNormalNonDot (s1 ++ '.' :: s2)).map
          (fun x => (x.1, x.2 + 1)) from by
      simp only [findBad]
      rw [if_neg (by decide)]]
    rw [findBad_append_some badNormalNonDot s1 _ (r, j)
      (by rw [hcongr s1 hd1]; exact hk)]
    show some (r, s0.length + (j + 1)) = some (r, p)
    rw [hp]
    have : s0.length + (j + 1) = s0.length + 1 + j := by omega
    rw [this]
  · rw [findBad_append_none badNormalNonDot s0 _
      (by rw [hcongr s0 hd0]; exact hf0)]
    rw [show findBad badNormalNonDot ('.' :: (s1 ++ '.' :: s2)) =
        (findBad badNormalNonDot (s1 ++ '.' :: s2)).map
          (fun x => (x.1, x.2 + 1)) from by
      simp only [findBad]
      rw [if_neg (by decide)]]
    rw [findBad_append_none badNormalNonDot s1 _
      (by rw [hcongr s1 hd1]; exact hf1)]
    rw [show findBad badNormalNonDot ('.' :: s2) =
        (findBad badNormalNonDot s2).map (fun x => (x.1, x.2 + 1)) from by
      simp only [findBad]
      rw [if_neg (by decide)]]
    rw [hcongr s2 hd2, hk]
    show some (r, s0.length + (s1.length + (j + 1 + 1))) = some (r, p)
    rw [hp]
    have : s0.length + (s1.length + (j + 1 + 1)) =
        s0.length + 1 + (s1.length + 1) + j := by omega
    rw [this]

theorem claim_C5_witness :
    (new ['1', '.', '2', 'x', '.', '3'] =
      .error (.parseErr "normal" 'x' 3)) ∧
    findBad badNormalNonDot
      (goSplit '-' (goSplit '+' ['1', '.', '2', 'x', '.', '3']).headI).headI =
      some ('x', 3) :=
  ⟨rfl, claim_C5 ['1', '.', '2', 'x', '.', '3'] 'x' 3 rfl⟩

end Sem
